import Mathlib
/-!
Verification of the Synchronator reconciliation engine (Synchronator.py)
against its natural-language specification.

The development shallowly embeds the module `Synchronator.py`:

* the chunked-upload loop of `DropboxState.upload` as a trace of transfer
  calls (`Chunk` namespace);
* the state-mutating engine (`DropboxState` with its two bookkeeping
  tables, the local filesystem, the remote store, `execute_delta`,
  `check_local`, conflict handling, the `__main__` entry point) as a
  step-by-step state machine over an explicit state record `S`
  (`Synchronator` namespace).

Python dictionaries are modelled as association lists, uncaught Python
exceptions as an `err` field that, once set, freezes the state (every
operation starts by checking it, mirroring exception propagation), and
network/OS failures as boolean oracles in a configuration record `Cfg`.
-/

set_option maxHeartbeats 1000000
/-! ### Association-list helpers (Python `dict`) -/

def alook {α : Type} (k : String) : List (String × α) → Option α
  | [] => none
  | kv :: t => if kv.1 = k then some kv.2 else alook k t

namespace Synchronator
/-- Python `d[k] = v`: replace in place if present, else append. -/
def aset {α : Type} (k : String) (v : α) (l : List (String × α)) : List (String × α) :=
  if (alook k l).isSome then l.map (fun kv => if kv.1 = k then (k, v) else kv)
  else l ++ [(k, v)]

/-- Python `del d[k]` (callers establish presence; see each call site). -/
def adel {α : Type} (k : String) (l : List (String × α)) : List (String × α) :=
  l.filter (fun kv => decide (kv.1 ≠ k))

/-! ### Path helpers (structural versions of `os.path` operations) -/

def splitSegsAux : List Char → List Char → List String
  | [], acc => [String.mk acc.reverse]
  | c :: t, acc =>
      if c = '/' then String.mk acc.reverse :: splitSegsAux t []
      else splitSegsAux t (c :: acc)

/-- Split a path on `/` (structural stand-in for `p.split(os.sep)`). -/
def splitPath (p : String) : List String := splitSegsAux p.data []

def joinPath : List String → String
  | [] => ""
  | [x] => x
  | x :: t => x ++ "/" ++ joinPath t

/-- `os.path.dirname`. -/
def parentDir (p : String) : String := joinPath (splitPath p).dropLast

/-- Final path component. -/
def basename (p : String) : String := ((splitPath p).getLast?).getD ""

def strStarts (pre s : String) : Bool := pre.data.isPrefixOf s.data

def strEnds (suf s : String) : Bool := suf.data.reverse.isPrefixOf s.data.reverse

/-- The directories `os.makedirs d` creates: every prefix of `d`'s segments. -/
def makedirsList (d : String) : List String :=
  (List.range (splitPath d).length).map (fun k => joinPath ((splitPath d).take (k + 1)))

/-- Proper ancestor directories of a file path (used for the parent folders a
remote store creates implicitly when a file is uploaded). -/
def properAncestors (p : String) : List String :=
  ((List.range (splitPath p).length.pred).map
    (fun k => joinPath ((splitPath p).take (k + 1))))

end Synchronator
namespace Chunk
/-!
Byte-level model of `DropboxState.upload` (Synchronator.py lines 201-243):
the decision between the simple `files_upload` call and the
session-start/append/finish loop, and the exact trace of calls the loop
makes.  `len data` of each `local_fr.read(10000000)` is determined by the
number of bytes remaining, so the trace is a function of the file size.
-/

def CHUNK_SIZE : Nat := 10000000

/-- `size > 140000000` is the chunked-mode test in the source. -/
def SIMPLE_LIMIT : Nat := 140000000

inductive UpCall
  | simpleUpload (len : Nat)
  | sessionStart (len : Nat)
  | sessionAppend (len : Nat) (offset : Nat)
  | sessionFinish (len : Nat) (offset : Nat)

deriving DecidableEq, Repr

inductive Mode
  | simple
  | chunked

deriving DecidableEq, Repr

def upload_mode (size : Nat) : Mode :=
  if size > SIMPLE_LIMIT then .chunked else .simple

/-- The `while not close` loop of `upload`.  `remaining` is the number of
bytes not yet read, `started` tells whether `session_id` is set, and
`offset` is the running `offset` variable, which at every call equals the
number of bytes already transferred (the `session_cursor` carried into the
next call is built from this value).  A short read (`len data < 10000000`)
exits the loop and submits the data via `files_upload_session_finish`.
The first read can only be short when `size ≤ CHUNK_SIZE`, which the
`size > 140000000` guard excludes, so the `started = false` finish case is
unreachable from `upload_transfer_calls`. -/
def session_calls (remaining : Nat) (started : Bool) (offset : Nat) : List UpCall :=
  let len := min remaining CHUNK_SIZE
  if len < CHUNK_SIZE then [.sessionFinish len offset]
  else
    (if started then UpCall.sessionAppend len offset else UpCall.sessionStart len)
      :: session_calls (remaining - len) true (offset + len)
termination_by remaining
decreasing_by
  rename_i h
  simp only [Nat.not_lt, Nat.le_min] at h
  simp only [Nat.min_def]
  split <;> (simp only [CHUNK_SIZE] at *; omega)

/-- The full trace of store calls `upload` makes for a file of `size` bytes. -/
def upload_transfer_calls (size : Nat) : List UpCall :=
  match upload_mode size with
  | .chunked => session_calls size false 0
  | .simple => [.simpleUpload size]

def isAppend : UpCall → Bool
  | .sessionAppend _ _ => true
  | _ => false

def isStart : UpCall → Bool
  | .sessionStart _ => true
  | _ => false

def countAppends (l : List UpCall) : Nat := l.countP isAppend

def countStarts (l : List UpCall) : Nat := l.countP isStart

/-- The `(len, offset)` pairs of the finish calls in a trace. -/
def finishes (l : List UpCall) : List (Nat × Nat) :=
  l.filterMap (fun c => match c with
    | .sessionFinish n o => some (n, o)
    | _ => none)

def callLen : UpCall → Nat
  | .simpleUpload n => n
  | .sessionStart n => n
  | .sessionAppend n _ => n
  | .sessionFinish n _ => n

def callOffset? : UpCall → Option Nat
  | .sessionAppend _ o => some o
  | .sessionFinish _ o => some o
  | _ => none

/-- Every call that carries a cursor offset carries exactly the number of
bytes sent before it, counting from a session already `base` bytes in. -/
def offsetsExact : List UpCall → Nat → Prop
  | [], _ => True
  | c :: t, base => (∀ o, callOffset? c = some o → o = base) ∧ offsetsExact t (base + callLen c)

end Chunk
namespace Synchronator
/-! ### Data model of the reconciliation engine

`Meta` is one entry of `self.local_files` / `self.remote_files`
(`{'rev': ..., 'modified': ...}`).  Revisions are opaque tokens assigned by
the store; we model them as naturals drawn from the running clock.
Modification times are naturals from the same clock. -/

structure Meta where
  rev : Nat
  modified : Nat

deriving DecidableEq, Repr

/-- The two bookkeeping tables of `DropboxState.__init__`. -/
structure SyncTables where
  local_files : List (String × Meta)
  remote_files : List (String × Meta)

deriving DecidableEq, Repr

/-- The local filesystem: files (path, mtime) and directories. -/
structure LocalFs where
  files : List (String × Nat)
  dirs : List String

deriving DecidableEq, Repr

/-- The remote store: files (path, revision) and folders. -/
structure RemoteFs where
  files : List (String × Nat)
  dirs : List String

deriving DecidableEq, Repr

/-- One entry of a `files_list_folder` page (`FileMetadata` with its `rev`,
or `FolderMetadata`), with the leading slash of `path_display` stripped as
the source does. -/
inductive Entry
  | file (path : String) (rev : Nat)
  | folder (path : String)

deriving DecidableEq, Repr

/-- Observable actions of a run: the transfers, deletions, directory
operations, prompts and warnings the engine performs. -/
inductive Action
  | upload (path : String)
  | download (path : String)
  | deleteLocal (path : String)
  | deleteRemote (path : String)
  | deleteRemoteDir (path : String)
  | mkdir (path : String)
  | promptConflict (path : String)
  | warnRemoteDeleteFailed (path : String)

deriving DecidableEq, Repr

/-- Uncaught Python exceptions. -/
inductive Err
  | keyError
  | osError
  | missingLocalFile (path : String)
  | notFoundRemote (path : String)
  | transferFailed (path : String)
  | listingTruncated
  | attrError

deriving DecidableEq, Repr

/-- A validated answer of the conflict prompt (`reprompt` loops until the
user enters one of `l`, `r`, `la`, `ra`). -/
inductive Ans
  | l
  | r
  | la
  | ra

deriving DecidableEq, Repr

/-- Environment oracles: whether each network transfer or OS removal
succeeds, and the answer the user gives at a conflict prompt. -/
structure Cfg where
  uploadOk : String → Bool
  downloadOk : String → Bool
  deleteOk : String → Bool
  removeOk : String → Bool
  answers : String → Ans

/-- The whole mutable world of one run: local filesystem, remote store,
the `DropboxState` tables, a clock supplying fresh mtimes/revisions, the
trace of actions, and the pending uncaught exception (if any).  Every
operation first checks `err`, modelling exception propagation: once an
exception is pending, no further work happens. -/
structure S where
  lfs : LocalFs
  rfs : RemoteFs
  st : SyncTables
  clock : Nat
  acts : List Action
  err : Option Err

deriving DecidableEq, Repr

def emit (a : Action) (s : S) : S := { s with acts := s.acts ++ [a] }

def fail (e : Err) (s : S) : S := { s with err := some e }

/-- `os.path.getmtime` (raises `OSError`, i.e. `none`, when missing). -/
def getmtime (fs : LocalFs) (p : String) : Option Nat := alook p fs.files

/-- `os.path.exists` on the local side.  A path exists if it is the current
directory, a recorded directory, a file, or an implicit parent of either. -/
def existsLocal (fs : LocalFs) (p : String) : Bool :=
  decide (p = ".") || fs.dirs.contains p || (alook p fs.files).isSome ||
    fs.files.any (fun kv => strStarts (p ++ "/") kv.1) ||
    fs.dirs.any (fun d => strStarts (p ++ "/") d)

/-- `not os.listdir(d)`: `d` has no entries (we test for descendants, which
for a filesystem is equivalent).  The current directory `"."` contains
every top-level entry. -/
def localChildless (fs : LocalFs) (d : String) : Bool :=
  if d = "." then fs.files.isEmpty && fs.dirs.isEmpty
  else
    !(fs.files.any (fun kv => strStarts (d ++ "/") kv.1) ||
      fs.dirs.any (fun x => strStarts (d ++ "/") x))

/-- `os.removedirs` from `delete_local`/`delete_remote`: remove the given
directory, then remove ancestors while they are empty, stopping at the
first non-empty one.  The segments are passed leaf-first (reversed), so the
recursion is structural; `joinPath rsegs.reverse` is the current directory. -/
def removeDirsUpAux (files : List (String × Nat)) : List String → List String → List String
  | [], dirs => dirs
  | seg :: rest, dirs =>
      let d := joinPath (seg :: rest).reverse
      if dirs.contains d && localChildless ⟨files, dirs.filter (fun x => decide (x ≠ d))⟩ d then
        removeDirsUpAux files rest (dirs.filter (fun x => decide (x ≠ d)))
      else dirs

/-- `check_local_update`: `os.path.getmtime(path) > self.local_files[path]['modified']`;
`none` when the local file (`OSError`) or the table entry (`KeyError`) is
missing. -/
def check_local_update (s : S) (p : String) : Option Bool :=
  match getmtime s.lfs p, alook p s.st.local_files with
  | some t, some m => some (decide (t > m.modified))
  | _, _ => none

/-- The empty-directory cleanup shared by `delete_local` and
`delete_remote`: `dir = os.path.dirname(path)` (or `'.'`), and if it exists
and is empty, `os.removedirs(dir)`.  `os.rmdir` of `'.'` or of a non-directory
raises `OSError`, which neither caller catches. -/
def local_dir_cleanup (p : String) (s : S) : S :=
  if s.err.isSome then s else
  let d0 := parentDir p
  let d := if d0 = "" then "." else d0
  if existsLocal s.lfs d && localChildless s.lfs d then
    if s.lfs.dirs.contains d then
      { s with lfs := { s.lfs with
          dirs := removeDirsUpAux s.lfs.files (splitPath d).reverse s.lfs.dirs } }
    else fail .osError s
  else s

/-- `DropboxState.delete_local` (lines 115-129): print, `os.remove` with
`OSError` suppressed, unconditional `del` from both tables (`KeyError` is
uncaught; the only caller guards membership), then empty-directory cleanup. -/
def delete_local (cfg : Cfg) (p : String) (s : S) : S :=
  if s.err.isSome then s else
  let s := emit (.deleteLocal p) s
  let s := if cfg.removeOk p then { s with lfs := { s.lfs with files := adel p s.lfs.files } } else s
  match alook p s.st.local_files with
  | none => fail .keyError s
  | some _ =>
    let s := { s with st := { s.st with local_files := adel p s.st.local_files } }
    match alook p s.st.remote_files with
    | none => fail .keyError s
    | some _ =>
      let s := { s with st := { s.st with remote_files := adel p s.st.remote_files } }
      local_dir_cleanup p s

/-- `DropboxState.download_remote` (lines 158-170): print, `os.makedirs` for
a missing parent, `files_download_to_file` (its failure — network error or
path absent from the store — raises before any bookkeeping), then record the
same fresh metadata in both tables.  The mtime recorded is the one observed
right after the write, supplied by the clock. -/
def download_remote (cfg : Cfg) (p : String) (s : S) : S :=
  if s.err.isSome then s else
  let s := emit (.download p) s
  let head := parentDir p
  let s :=
    if head ≠ "" && !(existsLocal s.lfs head) then
      { s with lfs := { s.lfs with dirs := s.lfs.dirs ++ makedirsList head } }
    else s
  if cfg.downloadOk p then
    match alook p s.rfs.files with
    | some r =>
      let m : Meta := ⟨r, s.clock⟩
      { s with
        lfs := { s.lfs with files := aset p s.clock s.lfs.files },
        st := { local_files := aset p m s.st.local_files,
                remote_files := aset p m s.st.remote_files },
        clock := s.clock + 1 }
    | none => fail (.notFoundRemote p) s
  else fail (.transferFailed p) s

/-- `DropboxState.upload` (lines 201-247) at the state level: print,
`os.path.getsize` (raises when the local file is missing), the transfer
itself (simple or chunked; byte-level trace in the `Chunk` namespace), whose
failure raises before any bookkeeping.  On success the store assigns a fresh
revision (and implicitly creates parent folders), and the same metadata —
fresh revision plus `os.path.getmtime(path)` — is written to both tables. -/
def upload (cfg : Cfg) (p : String) (s : S) : S :=
  if s.err.isSome then s else
  let s := emit (.upload p) s
  match getmtime s.lfs p with
  | none => fail (.missingLocalFile p) s
  | some t =>
    if cfg.uploadOk p then
      let r := s.clock
      let m : Meta := ⟨r, t⟩
      { s with
        rfs := { files := aset p r s.rfs.files, dirs := s.rfs.dirs ++ properAncestors p },
        st := { local_files := aset p m s.st.local_files,
                remote_files := aset p m s.st.remote_files },
        clock := s.clock + 1 }
    else fail (.transferFailed p) s

/-- `DropboxState.check_state` (lines 109-113): upload when the path is
absent from `remote_files` or when `check_local_update` reports a newer
local mtime.  A `none` from `check_local_update` is an uncaught
`OSError`/`KeyError`. -/
def check_state (cfg : Cfg) (p : String) (s : S) : S :=
  if s.err.isSome then s else
  if (alook p s.st.remote_files).isNone then upload cfg p s
  else
    match check_local_update s p with
    | some true => upload cfg p s
    | some false => s
    | none => fail .keyError s

/-- `dbx.files_list_folder('/'+d).entries` in the cascade of
`delete_remote`: listing a folder that does not exist on the store raises. -/
def existsRemoteDir (fs : RemoteFs) (d : String) : Bool :=
  fs.dirs.contains d ||
    fs.files.any (fun kv => strStarts (d ++ "/") kv.1) ||
    fs.dirs.any (fun x => strStarts (d ++ "/") x)

def remoteDirChildless (fs : RemoteFs) (d : String) : Bool :=
  !(fs.files.any (fun kv => strStarts (d ++ "/") kv.1) ||
    fs.dirs.any (fun x => strStarts (d ++ "/") x))

/-- The upward remote cascade of `delete_remote` (lines 148-156):
`while len(dir) > 1 and not dbx.files_list_folder(dir).entries:` delete the
empty remote folder (a failure prints a warning and breaks), then move to
the parent.  Segments are passed leaf-first so the recursion is structural;
an empty list is the root, where `len(dir) > 1` fails.  A raising
`files_list_folder` (folder absent remotely) is uncaught. -/
def remote_cascade (cfg : Cfg) : List String → S → S
  | [], s => s
  | seg :: rest, s =>
    if s.err.isSome then s else
    let d := joinPath (seg :: rest).reverse
    if !(existsRemoteDir s.rfs d) then fail (.notFoundRemote d) s
    else if remoteDirChildless s.rfs d then
      if cfg.deleteOk d then
        remote_cascade cfg rest
          (emit (.deleteRemoteDir d)
            { s with rfs := { s.rfs with dirs := s.rfs.dirs.filter (fun x => decide (x ≠ d)) } })
      else emit (.warnRemoteDeleteFailed d) s
    else s

/-- `DropboxState.delete_remote` (lines 131-156): print, then
`try: dbx.files_delete('/'+path); del local_files[path]; del remote_files[path]`
with a bare `except` that prints a warning — so an API failure, a missing
remote path, or a `KeyError` from either `del` all fall into the warning
branch, keeping whatever was already mutated.  Only on full success does the
`else:` clause run the local empty-directory cleanup and the remote cascade. -/
def delete_remote (cfg : Cfg) (p : String) (s : S) : S :=
  if s.err.isSome then s else
  let s := emit (.deleteRemote p) s
  if cfg.deleteOk p && (alook p s.rfs.files).isSome then
    let s := { s with rfs := { s.rfs with files := adel p s.rfs.files } }
    match alook p s.st.local_files with
    | none => emit (.warnRemoteDeleteFailed p) s
    | some _ =>
      let s := { s with st := { s.st with local_files := adel p s.st.local_files } }
      match alook p s.st.remote_files with
      | none => emit (.warnRemoteDeleteFailed p) s
      | some _ =>
        let s := { s with st := { s.st with remote_files := adel p s.st.remote_files } }
        let s := local_dir_cleanup p s
        let d0 := parentDir p
        remote_cascade cfg (if d0 = "" then [] else (splitPath d0).reverse) s
  else emit (.warnRemoteDeleteFailed p) s

/-- `DropboxState.make_local_dir` (lines 191-199): `os.makedirs` when the
path does not exist; otherwise, if a file occupies the path, remove the
file, delete it from `local_files` only (`remote_files` is left alone and a
missing `local_files` entry raises `KeyError`), and then call `os.makedir`
— which does not exist in Python's `os` module, so an `AttributeError` is
raised before any directory is created. -/
def make_local_dir (cfg : Cfg) (p : String) (s : S) : S :=
  if s.err.isSome then s else
  if !(existsLocal s.lfs p) then
    { s with lfs := { s.lfs with dirs := s.lfs.dirs ++ makedirsList p } }
  else if (alook p s.lfs.files).isSome then
    if cfg.removeOk p then
      let s := { s with lfs := { s.lfs with files := adel p s.lfs.files } }
      match alook p s.st.local_files with
      | none => fail .keyError s
      | some _ =>
        fail .attrError { s with st := { s.st with local_files := adel p s.st.local_files } }
    else fail .osError s
  else s

/-- The transfer `handle_conflict` executes once a side is chosen:
download for "prefer remote", upload for "prefer local" (lines 250-254). -/
def apply_conflict_choice (cfg : Cfg) (p : String) (b : Bool) (s : S) : S :=
  if b then download_remote cfg p s else upload cfg p s

/-- `DropboxState.handle_conflict` (lines 249-276).  With a memoized side it
applies that side and returns it unchanged.  Otherwise it prompts, takes
`answer.startswith('r')` as the chosen side, re-enters itself with that
side, and returns the side as the new memo only when the answer ends in
`'a'`. -/
def handle_conflict (cfg : Cfg) (p : String) (preferRemote : Option Bool) (s : S) :
    Option Bool × S :=
  if s.err.isSome then (preferRemote, s) else
  match preferRemote with
  | some b => (some b, apply_conflict_choice cfg p b s)
  | none =>
    let s := emit (.promptConflict p) s
    let ans := cfg.answers p
    let b := decide (ans = .r ∨ ans = .ra)
    let s := apply_conflict_choice cfg p b s
    if ans = .la ∨ ans = .ra then (some b, s) else (none, s)

/-- One iteration of the entry loop of
`DropboxState.__process_remote_entries` (lines 278-302), folding the
`prefer_remote` memo, the `current_remote_file_paths` accumulator and the
state.  A file path is added to the accumulator after its branch runs (an
exception would skip the add); a folder entry calls `make_local_dir` only
when the path does not already exist locally. -/
def process_entry (cfg : Cfg) (acc : Option Bool × List String × S) (e : Entry) :
    Option Bool × List String × S :=
  let pr := acc.1
  let cur := acc.2.1
  let s := acc.2.2
  if s.err.isSome then acc else
  match e with
  | .file p rev =>
    match alook p s.st.local_files with
    | none =>
      let s2 := download_remote cfg p s
      (pr, if s2.err.isSome then cur else cur ++ [p], s2)
    | some m =>
      if rev ≠ m.rev then
        match getmtime s.lfs p with
        | none => (pr, cur, fail (.missingLocalFile p) s)
        | some t =>
          if t > m.modified then
            let r := handle_conflict cfg p pr s
            (r.1, if r.2.err.isSome then cur else cur ++ [p], r.2)
          else
            let s2 := download_remote cfg p s
            (pr, if s2.err.isSome then cur else cur ++ [p], s2)
      else (pr, cur ++ [p], s)
  | .folder p =>
    if !(existsLocal s.lfs p) then
      (pr, cur, make_local_dir cfg p (emit (.mkdir p) s))
    else (pr, cur, s)

/-- `__process_remote_entries` over one page: `prefer_remote` starts at
`None` on every call (it is a local variable of the method), while the
`current_remote_file_paths` set is shared across pages by the caller. -/
def process_remote_entries (cfg : Cfg) (entries : List Entry) (cur : List String) (s : S) :
    List String × S :=
  let r := entries.foldl (process_entry cfg) (none, cur, s)
  (r.2.1, r.2.2)

/-- The deletion-inference loop at the end of `execute_delta` (lines
182-189): iterate over a snapshot of `remote_files`' keys; a path missing
from the drained listing and still present in `local_files` is deleted
locally. -/
def delta_delete_pass (cfg : Cfg) (cur : List String) (s : S) : S :=
  (s.st.remote_files.map Prod.fst).foldl
    (fun s p =>
      if s.err.isSome then s else
      if !(cur.contains p) && (alook p s.st.local_files).isSome then delete_local cfg p s
      else s) s

/-- `DropboxState.execute_delta` (lines 172-189).  `pages` are the entry
pages the paginated listing returned; `truncated` models a
`files_list_folder_continue` call that raises after those pages (the
`while True` loop re-raises it, so the deletion inference below the loop is
never reached).  Only after the listing is fully drained does the deletion
pass run. -/
def execute_delta (cfg : Cfg) (pages : List (List Entry)) (truncated : Bool) (s : S) : S :=
  if s.err.isSome then s else
  let r := pages.foldl
    (fun (acc : List String × S) page => process_remote_entries cfg page acc.1 acc.2)
    ([], s)
  if r.2.err.isSome then r.2 else
  if truncated then fail .listingTruncated r.2 else
  delta_delete_pass cfg r.1 r.2

/-- `STATE_FILENAME`. -/
def STATE_FILENAME : String := ".dropbox_state"

/-- `valid_filename_for_upload` (lines 396-402). -/
def valid_filename_for_upload (f : String) : Bool :=
  !(decide (f = STATE_FILENAME) || strStarts "." f || strStarts "@" f ||
    strEnds "~" f || strEnds ".pyc" f || strEnds ".pyo" f)

/-- `valid_dir_for_upload` (lines 379-393), applied to `os.walk` roots of
the form `.`, `./a`, `./a/b`, ... -/
def valid_dir_for_upload (dir : String) : Bool :=
  if dir = "." then true
  else
    let path := splitPath dir
    if path.length > 1 then
      let p1 := (path.get? 1).getD ""
      let plast := (path.getLast?).getD ""
      if strStarts "site" p1 then false
      else if p1 = "temp" || p1 = "Examples" then false
      else if decide (plast ≠ ".") && strStarts "." plast then false
      else true
    else true

/-- The chain of `os.walk` roots leading to the directory of relative path
`p`: `.`, `./a`, `./a/b`, ... -/
def dirChain (p : String) : List String :=
  let segs := (splitPath p).dropLast
  (List.range (segs.length + 1)).map (fun k => joinPath ("." :: segs.take k))

/-- The net inclusion rule of the `os.walk` loop in `check_local` (lines
308-319): a file is a candidate iff no ancestor directory (including via the
hereditary `invaliddirs` set) is invalid and its filename is valid. -/
def included_path (p : String) : Bool :=
  (dirChain p).all valid_dir_for_upload && valid_filename_for_upload (basename p)

/-- The `filelist` accumulated by `check_local`'s walk: every local file
whose path passes the inclusion rule. -/
def filelist (fs : LocalFs) : List String :=
  (fs.files.map Prod.fst).filter included_path

/-- `check_local` (lines 305-327): walk and filter the local tree, run
`check_state` on every candidate, then delete remotely every tracked path
that is no longer a candidate (`oldlist` is snapshotted after the upload
loop). -/
def check_local (cfg : Cfg) (s : S) : S :=
  if s.err.isSome then s else
  let fl := filelist s.lfs
  let s := fl.foldl (fun s p => check_state cfg p s) s
  let old := s.st.local_files.map Prod.fst
  old.foldl (fun s p => if !(fl.contains p) then delete_remote cfg p s else s) s

/-- The listing of the remote store a drained pagination returns: one file
entry per remote file (with its current revision) and one folder entry per
remote folder. -/
def remote_entries (fs : RemoteFs) : List Entry :=
  fs.files.map (fun kv => Entry.file kv.1 kv.2) ++ fs.dirs.map Entry.folder

/-- One full run body (`__main__` with a constructed client, lines 421-431):
remote pass (`check_remote` = `execute_delta`), then local pass
(`check_local`).  `save_state` only serializes and is omitted. -/
def run_sync (cfg : Cfg) (pages : List (List Entry)) (truncated : Bool) (s : S) : S :=
  check_local cfg (execute_delta cfg pages truncated s)

/-- The process exit status of `__main__` (lines 405-433): the script never
calls `sys.exit`, so it exits 0 unless an exception escapes, which happens
exactly when the sync body raises; when `init_dropbox` returns `None` the
script merely skips the sync (after `init_dropbox` printed its failure
message) and still exits 0. -/
def main_exit (dbxOk : Bool) (cfg : Cfg) (pages : List (List Entry)) (truncated : Bool)
    (s : S) : Nat :=
  if dbxOk then (if (run_sync cfg pages truncated s).err.isSome then 1 else 0) else 0

end Synchronator

namespace Synchronator

/-- Oracle configuration where every network and OS operation succeeds and
every conflict prompt is answered `ra` ("keep remote for all remaining"). -/
def cfg_all : Cfg :=
  ⟨fun _ => true, fun _ => true, fun _ => true, fun _ => true, fun _ => Ans.ra⟩

/-- Like `cfg_all` but the upload of path `a` fails. -/
def cfg_upfail_a : Cfg :=
  { cfg_all with uploadOk := fun p => decide (p ≠ "a"), answers := fun _ => Ans.l }

/-- Like `cfg_all` but `os.remove` fails (raises `OSError`). -/
def cfg_rmfail : Cfg := { cfg_all with removeOk := fun _ => false }

/-- A state with two conflicted tracked files `a` and `b`: both remote
revisions differ from the recorded ones and both local mtimes are newer
than the recorded synced mtimes. -/
def sample_conflicts : S :=
  { lfs := ⟨[("a", 10), ("b", 10)], []⟩,
    rfs := ⟨[("a", 7), ("b", 8)], []⟩,
    st := ⟨[("a", ⟨1, 5⟩), ("b", ⟨2, 5⟩)], [("a", ⟨1, 5⟩), ("b", ⟨2, 5⟩)]⟩,
    clock := 100, acts := [], err := none }

/-- A state with two untracked local files `a` and `b` and an empty store. -/
def sample_two_new : S :=
  { lfs := ⟨[("a", 1), ("b", 1)], []⟩, rfs := ⟨[], []⟩,
    st := ⟨[], []⟩, clock := 0, acts := [], err := none }

/-- A state where a tracked regular file occupies path `d`, which the
remote side reports as a folder. -/
def sample_file_at_folder : S :=
  { lfs := ⟨[("d", 3)], []⟩, rfs := ⟨[], ["d"]⟩,
    st := ⟨[("d", ⟨1, 3⟩)], [("d", ⟨1, 3⟩)]⟩, clock := 0, acts := [], err := none }

/-- A state where the tracked file `a` exists locally together with a
second file `b` (which keeps the directory non-empty), and `a` is also on
the remote store. -/
def sample_tracked_pair : S :=
  { lfs := ⟨[("a", 3), ("b", 4)], []⟩, rfs := ⟨[("a", 1)], []⟩,
    st := ⟨[("a", ⟨1, 3⟩)], [("a", ⟨1, 3⟩)]⟩, clock := 0, acts := [], err := none }

/-- A state whose store holds one file `a` not yet tracked locally. -/
def sample_fresh_remote : S :=
  { lfs := ⟨[("a", 5)], []⟩, rfs := ⟨[("a", 1)], []⟩,
    st := ⟨[], []⟩, clock := 100, acts := [], err := none }

/-- A state for the truncated-listing scenario: `x` synced, and a stale
record `gone` whose remote copy would only be recognised as deleted by a
complete listing. -/
def sample_stale : S :=
  { lfs := ⟨[("x", 2)], []⟩, rfs := ⟨[("x", 9), ("y", 4)], []⟩,
    st := ⟨[("x", ⟨9, 2⟩), ("gone", ⟨1, 1⟩)], [("x", ⟨9, 2⟩), ("gone", ⟨1, 1⟩)]⟩,
    clock := 0, acts := [], err := none }

/-- The empty state. -/
def sample_empty : S :=
  { lfs := ⟨[], []⟩, rfs := ⟨[], []⟩, st := ⟨[], []⟩, clock := 0, acts := [], err := none }

end Synchronator

namespace Synchronator

/-- The action trace only ever grows, and each operation appends only
actions satisfying the given classifier. -/
def actsExtend (s s' : S) (P : Action → Bool) : Prop :=
  ∃ d, s'.acts = s.acts ++ d ∧ ∀ a ∈ d, P a = true

/-- Classifier for C3: everything except a conflict prompt. -/
def promptFree : Action → Bool
  | .promptConflict _ => false
  | _ => true

end Synchronator

namespace Synchronator

/-- Classifier for C1: everything except a local deletion. -/
def delFree : Action → Bool
  | .deleteLocal _ => false
  | _ => true

/-- Key preservation: no table entry and no local file disappears. -/
def keyPres (s s' : S) : Prop :=
  (∀ q, (alook q s.st.local_files).isSome → (alook q s'.st.local_files).isSome) ∧
  (∀ q, (alook q s.st.remote_files).isSome → (alook q s'.st.remote_files).isSome) ∧
  (∀ q, (alook q s.lfs.files).isSome → (alook q s'.lfs.files).isSome)

/-- The C1 step relation: keys are preserved and no `deleteLocal` action is
emitted. -/
def C1Pres (s s' : S) : Prop := keyPres s s' ∧ actsExtend s s' delFree

end Synchronator

namespace Synchronator

/-- A well-formed association list: every member is found by lookup (keys
are effectively unique, as for paths of a real store). -/
def WfKeys {α : Type} (l : List (String × α)) : Prop :=
  ∀ p v, (p, v) ∈ l → alook p l = some v

/-- The file paths of a listing, in order. -/
def fileKeys : List Entry → List String
  | [] => []
  | .file p _ :: t => p :: fileKeys t
  | .folder _ :: t => fileKeys t

/-- Classifier for C8: a local `mkdir` is the only action a fully
converged re-run may perform. -/
def mkdirOnly : Action → Bool
  | .mkdir _ => true
  | _ => false

/-- The convergence invariant a successful warning-free run establishes:
every tracked path is also in the remote table, carries the revision the
store holds, and has a local file no newer than the recorded mtime that
the scanner will pick up again; conversely every remote file and every
wanted local file is tracked; and the store's key list is well-formed. -/
def Synced (s : S) : Prop :=
  (∀ p m, alook p s.st.local_files = some m → (alook p s.st.remote_files).isSome) ∧
  (∀ p m, alook p s.st.local_files = some m → alook p s.rfs.files = some m.rev) ∧
  (∀ p r, alook p s.rfs.files = some r →
    ∃ m, alook p s.st.local_files = some m ∧ m.rev = r) ∧
  (∀ p m, alook p s.st.local_files = some m →
    ∃ t, alook p s.lfs.files = some t ∧ t ≤ m.modified ∧ included_path p = true) ∧
  (∀ p t, alook p s.lfs.files = some t → included_path p = true →
    (alook p s.st.local_files).isSome) ∧
  WfKeys s.rfs.files ∧
  s.err = none

end Synchronator

namespace Synchronator

/-- What one file-entry step of the remote pass guarantees at its own path
and preserves elsewhere: the result is error-free, the path is tracked with
the revision the store now holds, and every other path's table entry and
store revision are untouched (the store's key set and well-formedness are
preserved). -/
def EntryStep (p : String) (s s' : S) : Prop :=
  s'.err = none ∧
  (∃ m, alook p s'.st.local_files = some m ∧ alook p s'.rfs.files = some m.rev) ∧
  (∀ q, q ≠ p → alook q s'.st.local_files = alook q s.st.local_files) ∧
  (∀ q, q ≠ p → alook q s'.rfs.files = alook q s.rfs.files) ∧
  (∀ q, (alook q s'.rfs.files).isSome = (alook q s.rfs.files).isSome) ∧
  (WfKeys s.rfs.files → WfKeys s'.rfs.files)

/-- The running invariant of the remote pass: every accumulated path is
tracked and carries the revision the store holds. -/
def RInv (cur : List String) (s : S) : Prop :=
  ∀ p, p ∈ cur → ∃ m, alook p s.st.local_files = some m ∧ alook p s.rfs.files = some m.rev

end Synchronator

namespace Synchronator

/-- The induction statement for the entry loop of the remote pass: an
error-free fold appends exactly the file paths of its entries to the
accumulator, (re-)establishes `RInv` for the new accumulator, preserves the
store's well-formedness and key set, and leaves the revision of every
unprocessed path untouched. -/
def RGoal (cfg : Cfg) (es : List Entry) : Prop :=
  ∀ (pr : Option Bool) (cur : List String) (s : S),
  s.err = none →
  (fileKeys es).Nodup →
  (∀ p r, Entry.file p r ∈ es → alook p s.rfs.files = some r) →
  RInv cur s →
  WfKeys s.rfs.files →
  (es.foldl (process_entry cfg) (pr, cur, s)).2.2.err = none →
  (es.foldl (process_entry cfg) (pr, cur, s)).2.1 = cur ++ fileKeys es ∧
  RInv (es.foldl (process_entry cfg) (pr, cur, s)).2.1
    (es.foldl (process_entry cfg) (pr, cur, s)).2.2 ∧
  WfKeys (es.foldl (process_entry cfg) (pr, cur, s)).2.2.rfs.files ∧
  (∀ q, (alook q (es.foldl (process_entry cfg) (pr, cur, s)).2.2.rfs.files).isSome
      = (alook q s.rfs.files).isSome) ∧
  (∀ q, q ∉ fileKeys es →
    alook q (es.foldl (process_entry cfg) (pr, cur, s)).2.2.rfs.files = alook q s.rfs.files)

end Synchronator

namespace Synchronator

/-- The revision-link invariant of the local pass: a path tracked in both
tables carries, in `local_files`, exactly the revision the store holds. -/
def UInv (s : S) : Prop :=
  ∀ p m, alook p s.st.local_files = some m → (alook p s.st.remote_files).isSome = true →
    alook p s.rfs.files = some m.rev

/-- Every remote file is tracked with its revision. -/
def W3Inv (s : S) : Prop :=
  ∀ p r, alook p s.rfs.files = some r → ∃ m, alook p s.st.local_files = some m ∧ m.rev = r

/-- What `check_state` guarantees for a scanned path once it has run: the
path is tracked in both tables, linked to the store's revision, and its
local mtime does not exceed the recorded one. -/
def PostCS (p : String) (s : S) : Prop :=
  ∃ m t, alook p s.st.local_files = some m ∧ (alook p s.st.remote_files).isSome = true ∧
    alook p s.rfs.files = some m.rev ∧ alook p s.lfs.files = some t ∧ t ≤ m.modified

end Synchronator

namespace Synchronator

/-- No remote-delete warning appears in a trace (computable form). -/
def warnFree (l : List Action) : Bool :=
  l.all (fun a => match a with | Action.warnRemoteDeleteFailed _ => false | _ => true)

/-- The single listing page of `sample_fresh_remote`'s store. -/
def c8_pages1 : List (List Entry) := [remote_entries sample_fresh_remote.rfs]

/-- The state after a first full run over `sample_fresh_remote`. -/
def c8_run1 : S := run_sync cfg_all c8_pages1 false sample_fresh_remote

/-- The listing the store reports after that run. -/
def c8_pages2 : List (List Entry) := [remote_entries c8_run1.rfs]

end Synchronator


namespace Synchronator
theorem alook_append {α : Type} (q : String) (l l' : List (String × α)) :
    alook q (l ++ l') =
      (match alook q l with
       | some v => some v
       | none => alook q l') := by
  induction l with
  | nil => simp [alook]
  | cons kv t ih =>
    by_cases hq : kv.1 = q
    · simp [alook, hq]
    · simp [alook, hq, ih]

theorem alook_setmap_self {α : Type} (k : String) (v : α) (l : List (String × α))
    (h : (alook k l).isSome) :
    alook k (l.map (fun kv => if kv.1 = k then (k, v) else kv)) = some v := by
  induction l with
  | nil => simp [alook] at h
  | cons kv t ih =>
    by_cases hk : kv.1 = k
    · simp [alook, hk]
    · simp only [alook, hk, if_false] at h
      simp only [List.map_cons, if_neg hk, alook, hk, if_false]
      exact ih h

theorem alook_setmap_ne {α : Type} (k q : String) (v : α) (l : List (String × α))
    (h : q ≠ k) :
    alook q (l.map (fun kv => if kv.1 = k then (k, v) else kv)) = alook q l := by
  induction l with
  | nil => simp [alook]
  | cons kv t ih =>
    by_cases hk : kv.1 = k
    · have hkq : ¬ (k = q) := fun hh => h hh.symm
      simp [alook, hk, hkq, ih]
    · by_cases hq : kv.1 = q
      · simp [alook, hk, hq, h]
      · simp [alook, hk, hq, ih]

theorem alook_aset_self {α : Type} (k : String) (v : α) (l : List (String × α)) :
    alook k (aset k v l) = some v := by
  unfold aset
  split
  · exact alook_setmap_self k v l (by assumption)
  · rename_i h
    rw [alook_append]
    cases hl : alook k l with
    | some w => rw [hl] at h; simp at h
    | none => simp [alook]

theorem alook_aset_ne {α : Type} (k q : String) (v : α) (l : List (String × α))
    (h : q ≠ k) : alook q (aset k v l) = alook q l := by
  unfold aset
  split
  · exact alook_setmap_ne k q v l h
  · rw [alook_append]
    have hkq : ¬ (k = q) := fun hh => h hh.symm
    cases hl : alook q l with
    | some w => rfl
    | none => simp [alook, hkq]

theorem alook_adel_self {α : Type} (k : String) (l : List (String × α)) :
    alook k (adel k l) = none := by
  induction l with
  | nil => simp [adel, alook]
  | cons kv t ih =>
    by_cases hk : kv.1 = k
    · simpa [adel, hk] using ih
    · simpa [adel, alook, hk] using ih

theorem alook_adel_ne {α : Type} (k q : String) (l : List (String × α))
    (h : q ≠ k) : alook q (adel k l) = alook q l := by
  induction l with
  | nil => simp [adel, alook]
  | cons kv t ih =>
    by_cases hk : kv.1 = k
    · have hkq : ¬ (k = q) := fun hh => h hh.symm
      simpa [adel, alook, hk, hkq] using ih
    · by_cases hq : kv.1 = q
      · simp [adel, alook, hk, hq, h]
      · simpa [adel, alook, hk, hq] using ih

end Synchronator
namespace Chunk
theorem session_calls_stop (r o : Nat) (st : Bool) (h : r < CHUNK_SIZE) :
    session_calls r st o = [.sessionFinish r o] := by
  rw [session_calls]
  simp [Nat.min_eq_left (Nat.le_of_lt h), h]

theorem session_calls_step (r o : Nat) (st : Bool) (h : CHUNK_SIZE ≤ r) :
    session_calls r st o =
      (if st then UpCall.sessionAppend CHUNK_SIZE o else UpCall.sessionStart CHUNK_SIZE)
        :: session_calls (r - CHUNK_SIZE) true (o + CHUNK_SIZE) := by
  rw [session_calls]
  simp [Nat.min_eq_right h, Nat.lt_irrefl]

/-- Structure of the loop trace when the bytes remaining are an exact
multiple of the chunk size and a session is already open: `n` appends of
full chunks and one finish call carrying zero bytes at offset `o + n·CHUNK`. -/
theorem session_calls_mult_started (n : Nat) : ∀ o : Nat,
    countAppends (session_calls (n * CHUNK_SIZE) true o) = n ∧
    countStarts (session_calls (n * CHUNK_SIZE) true o) = 0 ∧
    finishes (session_calls (n * CHUNK_SIZE) true o) = [(0, o + n * CHUNK_SIZE)] := by
  induction n with
  | zero =>
    intro o
    rw [session_calls_stop _ _ _ (by simp [CHUNK_SIZE])]
    simp [countAppends, countStarts, finishes, isAppend, isStart]
  | succ k ih =>
    intro o
    have hle : CHUNK_SIZE ≤ (k + 1) * CHUNK_SIZE := by
      calc CHUNK_SIZE = 1 * CHUNK_SIZE := (Nat.one_mul _).symm
      _ ≤ (k + 1) * CHUNK_SIZE := Nat.mul_le_mul_right _ (by omega)
    rw [session_calls_step _ _ _ hle]
    have hsub : (k + 1) * CHUNK_SIZE - CHUNK_SIZE = k * CHUNK_SIZE := by
      rw [Nat.succ_mul]; omega
    rw [hsub]
    obtain ⟨h1, h2, h3⟩ := ih (o + CHUNK_SIZE)
    refine ⟨?_, ?_, ?_⟩
    · simp [countAppends, isAppend, h1]
      simpa [countAppends] using h1
    · simpa [countStarts, isStart] using h2
    · simp only [finishes, List.filterMap_cons]
      rw [show ((k + 1) * CHUNK_SIZE) = CHUNK_SIZE + k * CHUNK_SIZE by rw [Nat.succ_mul]; omega]
      simpa [finishes, Nat.add_assoc] using h3

/-- Same loop with a trailing short chunk of `r` bytes (`0 < r < CHUNK_SIZE`):
the short read exits the loop and the finish call carries the `r` bytes. -/
theorem session_calls_short_started (n : Nat) : ∀ o r : Nat, 0 < r → r < CHUNK_SIZE →
    countAppends (session_calls (n * CHUNK_SIZE + r) true o) = n ∧
    countStarts (session_calls (n * CHUNK_SIZE + r) true o) = 0 ∧
    finishes (session_calls (n * CHUNK_SIZE + r) true o) = [(r, o + n * CHUNK_SIZE)] := by
  induction n with
  | zero =>
    intro o r _ hr2
    rw [Nat.zero_mul, Nat.zero_add, session_calls_stop _ _ _ hr2]
    simp [countAppends, countStarts, finishes, isAppend, isStart]
  | succ k ih =>
    intro o r hr1 hr2
    have hle : CHUNK_SIZE ≤ (k + 1) * CHUNK_SIZE + r := by
      have : CHUNK_SIZE ≤ (k + 1) * CHUNK_SIZE := by
        calc CHUNK_SIZE = 1 * CHUNK_SIZE := (Nat.one_mul _).symm
        _ ≤ (k + 1) * CHUNK_SIZE := Nat.mul_le_mul_right _ (by omega)
      omega
    rw [session_calls_step _ _ _ hle]
    have hsub : (k + 1) * CHUNK_SIZE + r - CHUNK_SIZE = k * CHUNK_SIZE + r := by
      rw [Nat.succ_mul]; omega
    rw [hsub]
    obtain ⟨h1, h2, h3⟩ := ih (o + CHUNK_SIZE) r hr1 hr2
    refine ⟨?_, ?_, ?_⟩
    · simpa [countAppends, isAppend] using h1
    · simpa [countStarts, isStart] using h2
    · simp only [finishes, List.filterMap_cons]
      rw [show ((k + 1) * CHUNK_SIZE) = CHUNK_SIZE + k * CHUNK_SIZE by rw [Nat.succ_mul]; omega]
      simpa [finishes, Nat.add_assoc] using h3

theorem finishes_cons_start (n : Nat) (l : List UpCall) :
    finishes (.sessionStart n :: l) = finishes l := by
  simp [finishes, List.filterMap_cons]

theorem finishes_cons_append (n o : Nat) (l : List UpCall) :
    finishes (.sessionAppend n o :: l) = finishes l := by
  simp [finishes, List.filterMap_cons]

theorem countAppends_cons_start (n : Nat) (l : List UpCall) :
    countAppends (.sessionStart n :: l) = countAppends l := by
  simp [countAppends, isAppend, List.countP_cons]

theorem countAppends_cons_append (n o : Nat) (l : List UpCall) :
    countAppends (.sessionAppend n o :: l) = countAppends l + 1 := by
  simp [countAppends, isAppend, List.countP_cons]

theorem countStarts_cons_start (n : Nat) (l : List UpCall) :
    countStarts (.sessionStart n :: l) = countStarts l + 1 := by
  simp [countStarts, isStart, List.countP_cons]

theorem countStarts_cons_append (n o : Nat) (l : List UpCall) :
    countStarts (.sessionAppend n o :: l) = countStarts l := by
  simp [countStarts, isStart, List.countP_cons]

/-- Loop trace for a fresh session and an exact multiple of the chunk size:
one `session_start`, `n - 1` appends, and an empty finish at offset
`n * CHUNK_SIZE`. -/
theorem session_calls_mult_fresh (n : Nat) (h : 1 ≤ n) :
    countAppends (session_calls (n * CHUNK_SIZE) false 0) = n - 1 ∧
    countStarts (session_calls (n * CHUNK_SIZE) false 0) = 1 ∧
    finishes (session_calls (n * CHUNK_SIZE) false 0) = [(0, n * CHUNK_SIZE)] := by
  have hle : CHUNK_SIZE ≤ n * CHUNK_SIZE := by
    calc CHUNK_SIZE = 1 * CHUNK_SIZE := (Nat.one_mul _).symm
    _ ≤ n * CHUNK_SIZE := Nat.mul_le_mul_right _ h
  have hsub : n * CHUNK_SIZE - CHUNK_SIZE = (n - 1) * CHUNK_SIZE := by
    rw [Nat.sub_one_mul]
  have harith : 0 + CHUNK_SIZE + (n - 1) * CHUNK_SIZE = n * CHUNK_SIZE := by
    have hc : CHUNK_SIZE = 10000000 := rfl
    rw [hc] at hle ⊢
    omega
  rw [session_calls_step _ _ _ hle, hsub]
  simp only [Bool.false_eq_true, if_false]
  obtain ⟨h1, h2, h3⟩ := session_calls_mult_started (n - 1) (0 + CHUNK_SIZE)
  rw [harith] at h3
  exact ⟨by rw [countAppends_cons_start]; exact h1,
    by rw [countStarts_cons_start, h2],
    by rw [finishes_cons_start]; exact h3⟩

/-- Loop trace for a fresh session and a trailing short chunk: the short
read (`r` bytes) leaves the loop and is carried by the finish call, at
offset `n * CHUNK_SIZE`. -/
theorem session_calls_short_fresh (n r : Nat) (h : 1 ≤ n) (hr1 : 0 < r) (hr2 : r < CHUNK_SIZE) :
    countAppends (session_calls (n * CHUNK_SIZE + r) false 0) = n - 1 ∧
    countStarts (session_calls (n * CHUNK_SIZE + r) false 0) = 1 ∧
    finishes (session_calls (n * CHUNK_SIZE + r) false 0) = [(r, n * CHUNK_SIZE)] := by
  have hle0 : CHUNK_SIZE ≤ n * CHUNK_SIZE := by
    calc CHUNK_SIZE = 1 * CHUNK_SIZE := (Nat.one_mul _).symm
    _ ≤ n * CHUNK_SIZE := Nat.mul_le_mul_right _ h
  have hle : CHUNK_SIZE ≤ n * CHUNK_SIZE + r := by omega
  have hsub : n * CHUNK_SIZE + r - CHUNK_SIZE = (n - 1) * CHUNK_SIZE + r := by
    rw [Nat.sub_one_mul]
    omega
  have harith : 0 + CHUNK_SIZE + (n - 1) * CHUNK_SIZE = n * CHUNK_SIZE := by
    have hc : CHUNK_SIZE = 10000000 := rfl
    rw [hc] at hle0 ⊢
    omega
  rw [session_calls_step _ _ _ hle, hsub]
  simp only [Bool.false_eq_true, if_false]
  obtain ⟨h1, h2, h3⟩ := session_calls_short_started (n - 1) (0 + CHUNK_SIZE) r hr1 hr2
  rw [harith] at h3
  exact ⟨by rw [countAppends_cons_start]; exact h1,
    by rw [countStarts_cons_start, h2],
    by rw [finishes_cons_start]; exact h3⟩

theorem offsetsExact_cons (c : UpCall) (t : List UpCall) (base : Nat) :
    offsetsExact (c :: t) base ↔
      ((∀ o, callOffset? c = some o → o = base) ∧ offsetsExact t (base + callLen c)) := by
  rw [offsetsExact]

/-- In every session trace the cursor offset carried by an append or finish
call equals the running byte count at that call. -/
theorem offsetsExact_session : ∀ (r : Nat) (st : Bool) (o : Nat),
    offsetsExact (session_calls r st o) o := by
  intro r st o
  induction r, st, o using session_calls.induct with
  | case1 r st o len hlt =>
    have hlt2 : r ⊓ CHUNK_SIZE < CHUNK_SIZE := hlt
    have hr : r < CHUNK_SIZE := by omega
    rw [session_calls_stop _ _ _ hr, offsetsExact_cons]
    refine ⟨fun o2 ho2 => ?_, trivial⟩
    simp [callOffset?] at ho2
    omega
  | case2 r st o len hnlt ih =>
    have hnlt2 : ¬ (r ⊓ CHUNK_SIZE < CHUNK_SIZE) := hnlt
    have hr : CHUNK_SIZE ≤ r := by omega
    have hl : len = CHUNK_SIZE := by
      have h2 : r ⊓ CHUNK_SIZE = CHUNK_SIZE := by omega
      exact h2
    clear_value len
    subst hl
    rw [session_calls_step _ _ _ hr]
    cases st with
    | false =>
      rw [offsetsExact_cons]
      refine ⟨fun o2 ho2 => ?_, ?_⟩
      · simp [callOffset?] at ho2
      · simpa [callLen] using ih
    | true =>
      rw [offsetsExact_cons]
      refine ⟨fun o2 ho2 => ?_, ?_⟩
      · simp [callOffset?] at ho2
        omega
      · simpa [callLen] using ih

/-- `upload_transfer_calls` for a chunked size is the session loop trace. -/
theorem upload_transfer_calls_chunked (size : Nat) (h : SIMPLE_LIMIT < size) :
    upload_transfer_calls size = session_calls size false 0 := by
  unfold upload_transfer_calls upload_mode
  simp [h]

/-- `upload_transfer_calls` for a small size is the single simple request. -/
theorem upload_transfer_calls_simple (size : Nat) (h : size ≤ SIMPLE_LIMIT) :
    upload_transfer_calls size = [.simpleUpload size] := by
  unfold upload_transfer_calls upload_mode
  simp [Nat.not_lt_of_le h]

end Chunk

/-- C5 counterexample: a file of exactly 140000000 bytes is sent in simple
mode — a single `files_upload` request — not in chunked/session mode as the
claim asserts for sizes at the threshold. -/
theorem c5_counterexample :
    Chunk.upload_mode 140000000 = Chunk.Mode.simple ∧
    Chunk.upload_transfer_calls 140000000 = [Chunk.UpCall.simpleUpload 140000000] := by
  constructor
  · rfl
  · rfl

/-- C5 (amended): the transfer mode is decided by `size > 140000000`: at or
below the threshold the upload is one simple request carrying the full
content, and strictly above it the upload is a chunked session opened by a
`session_start` call carrying the first full chunk. -/
theorem c5_theorem (size : Nat) :
    (size ≤ Chunk.SIMPLE_LIMIT →
      Chunk.upload_mode size = Chunk.Mode.simple ∧
      Chunk.upload_transfer_calls size = [Chunk.UpCall.simpleUpload size]) ∧
    (Chunk.SIMPLE_LIMIT < size →
      Chunk.upload_mode size = Chunk.Mode.chunked ∧
      (Chunk.upload_transfer_calls size).head? =
        some (Chunk.UpCall.sessionStart Chunk.CHUNK_SIZE)) := by
  constructor
  · intro h
    refine ⟨?_, Chunk.upload_transfer_calls_simple size h⟩
    unfold Chunk.upload_mode
    simp [Nat.not_lt_of_le h]
  · intro h
    constructor
    · unfold Chunk.upload_mode
      simp [h]
    · rw [Chunk.upload_transfer_calls_chunked size h]
      have hle : Chunk.CHUNK_SIZE ≤ size := by
        have h1 : Chunk.SIMPLE_LIMIT = 140000000 := rfl
        have h2 : Chunk.CHUNK_SIZE = 10000000 := rfl
        omega
      rw [Chunk.session_calls_step _ _ _ hle]
      simp

/-- C5 witness: the amended theorem applied at the threshold itself and one
byte above it. -/
theorem c5_witness :
    Chunk.upload_mode 140000000 = Chunk.Mode.simple ∧
    Chunk.upload_mode 140000001 = Chunk.Mode.chunked := by
  exact ⟨((c5_theorem 140000000).1 (by norm_num [Chunk.SIMPLE_LIMIT])).1,
    ((c5_theorem 140000001).2 (by norm_num [Chunk.SIMPLE_LIMIT])).1⟩

/-- C2 counterexample: a chunked upload of exactly 15 chunks (150000000
bytes, above the 140 MB threshold) makes 14 append calls, not 15, and its
finish call carries offset 150000000 with an empty payload — not offset
140000000 as the claim (N appends, offset N·chunk − chunk before finish)
requires at N = 15. -/
theorem c2_counterexample :
    Chunk.countAppends (Chunk.upload_transfer_calls 150000000) = 14 ∧
    Chunk.finishes (Chunk.upload_transfer_calls 150000000) = [(0, 150000000)] ∧
    ¬ (Chunk.countAppends (Chunk.upload_transfer_calls 150000000) = 15 ∧
       Chunk.finishes (Chunk.upload_transfer_calls 150000000) = [(0, 140000000)]) := by
  have hgt : Chunk.SIMPLE_LIMIT < 150000000 := by norm_num [Chunk.SIMPLE_LIMIT]
  have heq : (150000000 : Nat) = 15 * Chunk.CHUNK_SIZE := by norm_num [Chunk.CHUNK_SIZE]
  obtain ⟨h1, _, h3⟩ := Chunk.session_calls_mult_fresh 15 (by norm_num)
  rw [Chunk.upload_transfer_calls_chunked _ hgt]
  rw [heq]
  refine ⟨by rw [h1], by rw [h3], ?_⟩
  intro hcon
  rw [h1] at hcon
  exact absurd hcon.1 (by norm_num)

/-- C2 (amended): for a chunked upload (`N * CHUNK_SIZE > 140000000`): a
file of exactly `N` chunks opens the session with the first chunk
(`session_start`), makes `N − 1` append calls, and one finish call carrying
an empty payload at offset `N·chunk`; a file of `N·chunk − 1` bytes makes
the last read short, which exits the loop and submits that short chunk with
the finish call instead of an append, at offset `(N−1)·chunk`; and in every
trace each cursor offset equals the exact number of bytes already
transferred in the session. -/
theorem c2_theorem (N : Nat) (h : 15 ≤ N) :
    (Chunk.countAppends (Chunk.upload_transfer_calls (N * Chunk.CHUNK_SIZE)) = N - 1 ∧
     Chunk.countStarts (Chunk.upload_transfer_calls (N * Chunk.CHUNK_SIZE)) = 1 ∧
     Chunk.finishes (Chunk.upload_transfer_calls (N * Chunk.CHUNK_SIZE)) =
       [(0, N * Chunk.CHUNK_SIZE)]) ∧
    (Chunk.countAppends (Chunk.upload_transfer_calls (N * Chunk.CHUNK_SIZE - 1)) = N - 2 ∧
     Chunk.finishes (Chunk.upload_transfer_calls (N * Chunk.CHUNK_SIZE - 1)) =
       [(Chunk.CHUNK_SIZE - 1, (N - 1) * Chunk.CHUNK_SIZE)]) ∧
    (∀ size, Chunk.offsetsExact (Chunk.upload_transfer_calls size) 0) := by
  have hc : Chunk.CHUNK_SIZE = 10000000 := rfl
  have hl : Chunk.SIMPLE_LIMIT = 140000000 := rfl
  have hgt1 : Chunk.SIMPLE_LIMIT < N * Chunk.CHUNK_SIZE := by rw [hc, hl]; omega
  have hgt2 : Chunk.SIMPLE_LIMIT < N * Chunk.CHUNK_SIZE - 1 := by rw [hc, hl]; omega
  refine ⟨?_, ?_, ?_⟩
  · rw [Chunk.upload_transfer_calls_chunked _ hgt1]
    exact Chunk.session_calls_mult_fresh N (by omega)
  · rw [Chunk.upload_transfer_calls_chunked _ hgt2]
    have hsplit : N * Chunk.CHUNK_SIZE - 1 = (N - 1) * Chunk.CHUNK_SIZE + (Chunk.CHUNK_SIZE - 1) := by
      rw [hc]
      omega
    rw [hsplit]
    obtain ⟨h1, _, h3⟩ := Chunk.session_calls_short_fresh (N - 1) (Chunk.CHUNK_SIZE - 1)
      (by omega) (by rw [hc]; omega) (by rw [hc]; omega)
    exact ⟨by rw [h1]; omega, by rw [h3]⟩
  · intro size
    by_cases hs : size ≤ Chunk.SIMPLE_LIMIT
    · rw [Chunk.upload_transfer_calls_simple _ hs, Chunk.offsetsExact_cons]
      exact ⟨fun o ho => by simp [Chunk.callOffset?] at ho, trivial⟩
    · push_neg at hs
      rw [Chunk.upload_transfer_calls_chunked _ hs]
      exact Chunk.offsetsExact_session size false 0

/-- C2 witness: the amended chunk-boundary theorem applied at N = 15. -/
theorem c2_witness :
    Chunk.countAppends (Chunk.upload_transfer_calls (15 * Chunk.CHUNK_SIZE)) = 14 ∧
    Chunk.finishes (Chunk.upload_transfer_calls (15 * Chunk.CHUNK_SIZE - 1)) =
      [(Chunk.CHUNK_SIZE - 1, 14 * Chunk.CHUNK_SIZE)] := by
  obtain ⟨⟨a1, _, _⟩, ⟨_, b2⟩, _⟩ := c2_theorem 15 (by norm_num)
  exact ⟨a1, b2⟩

open Synchronator in
/-- C9 counterexample: when the remote client cannot be constructed
(`init_dropbox` returns `None`), the script prints a message, skips the
sync and falls off the end of `__main__`, so the process exits with status
0 — not the non-zero status the claim requires for that case. -/
theorem c9_counterexample :
    main_exit false cfg_all [] false sample_empty = 0 := by
  rfl

open Synchronator in
/-- C6 code bug: for a remote folder entry at path `d` occupied locally by
a regular file, the guard `if not os.path.exists(path)` in
`__process_remote_entries` sees the file and skips `make_local_dir`
entirely, so processing the entry changes nothing: the local file stays,
both table entries stay, and no directory is created (and
`make_local_dir`'s own file-replacement branch is unreachable from this
caller and would crash on the nonexistent `os.makedir` anyway). -/
theorem c6_theorem :
    process_remote_entries cfg_all [Entry.folder "d"] [] sample_file_at_folder =
      ([], sample_file_at_folder) ∧
    (alook "d" sample_file_at_folder.lfs.files).isSome ∧
    (alook "d" sample_file_at_folder.st.local_files).isSome := by
  refine ⟨?_, by decide, by decide⟩
  decide

open Synchronator in
/-- C7 counterexample: calling the folder-creation operation
`make_local_dir` on a path occupied by a tracked regular file removes the
path from `local_files` only — `remote_files` keeps its entry — so this
state-mutating operation does not write the two tables together, and the
two mappings end up with different keys (the operation then dies with
`AttributeError` from the nonexistent `os.makedir`). -/
theorem c7_counterexample :
    (make_local_dir cfg_all "a"
      { lfs := ⟨[("a", 3)], []⟩, rfs := ⟨[], []⟩,
        st := ⟨[("a", ⟨1, 3⟩)], [("a", ⟨1, 3⟩)]⟩,
        clock := 0, acts := [], err := none }).st.local_files = [] ∧
    (make_local_dir cfg_all "a"
      { lfs := ⟨[("a", 3)], []⟩, rfs := ⟨[], []⟩,
        st := ⟨[("a", ⟨1, 3⟩)], [("a", ⟨1, 3⟩)]⟩,
        clock := 0, acts := [], err := none }).st.remote_files = [("a", ⟨1, 3⟩)] ∧
    (make_local_dir cfg_all "a"
      { lfs := ⟨[("a", 3)], []⟩, rfs := ⟨[], []⟩,
        st := ⟨[("a", ⟨1, 3⟩)], [("a", ⟨1, 3⟩)]⟩,
        clock := 0, acts := [], err := none }).err = some Synchronator.Err.attrError := by
  refine ⟨?_, ?_, ?_⟩ <;> decide

open Synchronator in
/-- C4 counterexample: with two new local files `a` and `b` and the upload
of `a` failing, the exception propagates out of `check_state` and aborts
the whole local pass: the run ends with the error pending, `b` is never
uploaded (the only action is the attempted upload of `a`), and no table
entry was written — the pass does not continue with the remaining files as
the claim asserts. -/
theorem c4_counterexample :
    (check_local cfg_upfail_a sample_two_new).err = some (Err.transferFailed "a") ∧
    (check_local cfg_upfail_a sample_two_new).acts = [Action.upload "a"] ∧
    alook "b" (check_local cfg_upfail_a sample_two_new).st.local_files = none ∧
    (alook "b" sample_two_new.lfs.files).isSome := by
  refine ⟨?_, ?_, ?_, ?_⟩ <;> decide

open Synchronator in
/-- C3 counterexample: two conflicted files arriving on two different pages
of the listing; the user answers `ra` ("keep remote for all remaining") at
the first prompt, yet the second page prompts again for `b` —
`prefer_remote` is a local variable of `__process_remote_entries` and is
reset to `None` on every page, so the batch-scoped preference does not
survive page boundaries as the claim asserts. -/
theorem c3_counterexample :
    cfg_all.answers "a" = Ans.ra ∧
    (execute_delta cfg_all [[Entry.file "a" 7], [Entry.file "b" 8]] false
        sample_conflicts).acts =
      [Action.promptConflict "a", Action.download "a",
       Action.promptConflict "b", Action.download "b"] := by
  refine ⟨rfl, ?_⟩
  decide

namespace Synchronator

theorem local_dir_cleanup_fields (p : String) (s : S) :
    (local_dir_cleanup p s).st = s.st ∧ (local_dir_cleanup p s).acts = s.acts ∧
    (local_dir_cleanup p s).lfs.files = s.lfs.files ∧ (local_dir_cleanup p s).rfs = s.rfs ∧
    (local_dir_cleanup p s).clock = s.clock := by
  unfold local_dir_cleanup
  by_cases h0 : s.err.isSome
  · simp [h0]
  · simp only [h0, Bool.false_eq_true, if_false]
    repeat' split
    all_goals exact ⟨rfl, rfl, rfl, rfl, rfl⟩

theorem remote_cascade_fields (cfg : Cfg) (segs : List String) : ∀ (s : S),
    (remote_cascade cfg segs s).st = s.st ∧ (remote_cascade cfg segs s).lfs = s.lfs ∧
    (remote_cascade cfg segs s).clock = s.clock := by
  induction segs with
  | nil => intro s; exact ⟨rfl, rfl, rfl⟩
  | cons a rest ih =>
    intro s
    simp only [remote_cascade]
    repeat' split
    all_goals first
      | exact ih _
      | exact ⟨rfl, rfl, rfl⟩

/-- A failing upload raises after the attempt and leaves every piece of
state except the action trace untouched. -/
theorem upload_fail (cfg : Cfg) (p : String) (s : S) (h0 : s.err = none)
    (hm : (getmtime s.lfs p).isSome) (hf : cfg.uploadOk p = false) :
    (upload cfg p s).err = some (Err.transferFailed p) ∧
    (upload cfg p s).st = s.st ∧ (upload cfg p s).lfs = s.lfs ∧
    (upload cfg p s).rfs = s.rfs ∧
    (upload cfg p s).acts = s.acts ++ [Action.upload p] := by
  obtain ⟨t, ht⟩ := Option.isSome_iff_exists.mp hm
  unfold upload
  simp only [h0, Option.isSome_none, Bool.false_eq_true, if_false]
  have ht2 : getmtime (emit (Action.upload p) s).lfs p = some t := ht
  rw [ht2]
  simp only [hf, Bool.false_eq_true, if_false]
  exact ⟨rfl, rfl, rfl, rfl, rfl⟩

/-- A failing download raises after creating any missing parent directory
and leaves the tables, the local files and the store untouched. -/
theorem download_fail (cfg : Cfg) (p : String) (s : S) (h0 : s.err = none)
    (hf : cfg.downloadOk p = false) :
    (download_remote cfg p s).err = some (Err.transferFailed p) ∧
    (download_remote cfg p s).st = s.st ∧
    (download_remote cfg p s).lfs.files = s.lfs.files ∧
    (download_remote cfg p s).rfs = s.rfs ∧
    (download_remote cfg p s).acts = s.acts ++ [Action.download p] := by
  unfold download_remote
  simp only [h0, Option.isSome_none, Bool.false_eq_true, if_false]
  simp only [hf, Bool.false_eq_true, if_false]
  split <;> exact ⟨rfl, rfl, rfl, rfl, rfl⟩

/-- A failing remote delete is caught: the warning is printed, nothing is
mutated, and no exception is pending afterwards (the pass continues). -/
theorem delete_remote_fail (cfg : Cfg) (p : String) (s : S) (h0 : s.err = none)
    (hf : cfg.deleteOk p = false) :
    (delete_remote cfg p s).err = none ∧
    (delete_remote cfg p s).st = s.st ∧ (delete_remote cfg p s).lfs = s.lfs ∧
    (delete_remote cfg p s).rfs = s.rfs ∧
    (delete_remote cfg p s).acts =
      s.acts ++ [Action.deleteRemote p, Action.warnRemoteDeleteFailed p] := by
  unfold delete_remote
  simp only [h0, Option.isSome_none, Bool.false_eq_true, if_false]
  simp only [hf, Bool.false_and, Bool.false_eq_true, if_false]
  exact ⟨h0, rfl, rfl, rfl, by simp [emit]⟩

end Synchronator

open Synchronator in
/-- C4 (amended): when the remote delete of a single file fails, that file
is skipped — the warning is printed, its SyncState entry and everything
else are untouched, no exception is pending, and the pass continues; but
when the upload or download of a single file fails, the SyncState entry is
likewise untouched, yet the exception propagates (the error becomes
pending), which aborts the reconciliation pass instead of continuing with
the remaining files. -/
theorem c4_theorem (cfg : Cfg) (p : String) (s : S) (h0 : s.err = none) :
    (cfg.uploadOk p = false → (getmtime s.lfs p).isSome →
      (upload cfg p s).st = s.st ∧ (upload cfg p s).err = some (Err.transferFailed p)) ∧
    (cfg.downloadOk p = false →
      (download_remote cfg p s).st = s.st ∧
      (download_remote cfg p s).err = some (Err.transferFailed p)) ∧
    (cfg.deleteOk p = false →
      (delete_remote cfg p s).st = s.st ∧ (delete_remote cfg p s).err = none ∧
      (delete_remote cfg p s).acts =
        s.acts ++ [Action.deleteRemote p, Action.warnRemoteDeleteFailed p]) := by
  refine ⟨fun hf hm => ?_, fun hf => ?_, fun hf => ?_⟩
  · obtain ⟨he, hst, _, _, _⟩ := upload_fail cfg p s h0 hm hf
    exact ⟨hst, he⟩
  · obtain ⟨he, hst, _, _, _⟩ := download_fail cfg p s h0 hf
    exact ⟨hst, he⟩
  · obtain ⟨he, hst, _, _, ha⟩ := delete_remote_fail cfg p s h0 hf
    exact ⟨hst, he, ha⟩

open Synchronator in
/-- C4 witness: the amended theorem applied to a concrete single-file state
with each kind of failure in turn. -/
theorem c4_witness :
    (upload { cfg_all with uploadOk := fun _ => false } "a" sample_tracked_pair).err =
      some (Err.transferFailed "a") ∧
    (delete_remote { cfg_all with deleteOk := fun _ => false } "a" sample_tracked_pair).err =
      none := by
  constructor
  · exact ((c4_theorem { cfg_all with uploadOk := fun _ => false } "a" sample_tracked_pair
      rfl).1 rfl (by decide)).2
  · exact ((c4_theorem { cfg_all with deleteOk := fun _ => false } "a" sample_tracked_pair
      rfl).2.2 rfl).2.1

open Synchronator in
/-- C9 (amended): the script never calls `sys.exit`, so the process exits 0
both when the remote client cannot be constructed (the failure only prints
a message and the sync is skipped) and when the sync body finishes without
an uncaught exception — including runs in which individual remote deletes
failed and were skipped, since that failure is caught and does not raise;
the exit status is non-zero exactly when an uncaught exception escapes the
sync body. -/
theorem c9_theorem (dbxOk : Bool) (cfg : Cfg) (pages : List (List Entry)) (truncated : Bool)
    (s : S) :
    (dbxOk = false → main_exit dbxOk cfg pages truncated s = 0) ∧
    ((run_sync cfg pages truncated s).err = none →
      main_exit true cfg pages truncated s = 0) ∧
    ((run_sync cfg pages truncated s).err.isSome →
      main_exit true cfg pages truncated s = 1) ∧
    (∀ (p : String) (s2 : S), s2.err = none → cfg.deleteOk p = false →
      (delete_remote cfg p s2).err = none) := by
  refine ⟨fun h => ?_, fun h => ?_, fun h => ?_, fun p s2 h2 hf => ?_⟩
  · rw [h]; rfl
  · unfold main_exit
    simp [h]
  · unfold main_exit
    simp [h]
  · exact (delete_remote_fail cfg p s2 h2 hf).1

open Synchronator in
/-- C9 witness: the amended theorem applied to the concrete states of the
counterexample. -/
theorem c9_witness :
    main_exit false cfg_all [] false sample_empty = 0 ∧
    main_exit true cfg_upfail_a [] false sample_two_new = 1 := by
  constructor
  · exact (c9_theorem false cfg_all [] false sample_empty).1 rfl
  · exact (c9_theorem true cfg_upfail_a [] false sample_two_new).2.2.1 (by decide)

open Synchronator in
/-- Auxiliary fact for uploads: the attempt is always logged exactly once,
whatever the outcome. -/
theorem upload_acts (cfg : Cfg) (p : String) (s : S) (h0 : s.err = none) :
    (upload cfg p s).acts = s.acts ++ [Action.upload p] := by
  unfold upload
  simp only [h0, Option.isSome_none, Bool.false_eq_true, if_false]
  cases hm : getmtime (emit (Action.upload p) s).lfs p with
  | none => rfl
  | some t =>
    by_cases hu : cfg.uploadOk p = true
    · simp [hu, emit]
    · simp only [Bool.not_eq_true] at hu
      simp [hu, emit, fail]

open Synchronator in
/-- C10 (confirmed): `delete_local` removes the path from both bookkeeping
tables even when `os.remove` fails (the `OSError` is suppressed and the
local file stays), so the path becomes untracked; on the next pass
`check_state` then finds it absent from `remote_files` and re-uploads it as
a new file rather than retrying the deletion. -/
theorem c10_theorem (cfg : Cfg) (p : String) (s : S) (h0 : s.err = none)
    (hl : (alook p s.st.local_files).isSome) (hr : (alook p s.st.remote_files).isSome)
    (hrm : cfg.removeOk p = false) :
    alook p (delete_local cfg p s).st.local_files = none ∧
    alook p (delete_local cfg p s).st.remote_files = none ∧
    (delete_local cfg p s).lfs.files = s.lfs.files ∧
    ((delete_local cfg p s).err = none →
      (check_state cfg p (delete_local cfg p s)).acts =
        (delete_local cfg p s).acts ++ [Action.upload p]) := by
  obtain ⟨ml, hml⟩ := Option.isSome_iff_exists.mp hl
  obtain ⟨mr, hmr⟩ := Option.isSome_iff_exists.mp hr
  have hstep : delete_local cfg p s =
      local_dir_cleanup p
        { s with
          st := ⟨adel p s.st.local_files, adel p s.st.remote_files⟩,
          acts := s.acts ++ [Action.deleteLocal p] } := by
    unfold delete_local
    simp only [h0, Option.isSome_none, Bool.false_eq_true, if_false, hrm, emit]
    rw [show alook p s.st.local_files = some ml from hml]
    rw [show alook p s.st.remote_files = some mr from hmr]
  obtain ⟨f1, f2, f3, _, _⟩ := local_dir_cleanup_fields p
    { s with
      st := ⟨adel p s.st.local_files, adel p s.st.remote_files⟩,
      acts := s.acts ++ [Action.deleteLocal p] }
  rw [hstep]
  refine ⟨?_, ?_, ?_, fun herr => ?_⟩
  · rw [f1]
    exact alook_adel_self p s.st.local_files
  · rw [f1]
    exact alook_adel_self p s.st.remote_files
  · rw [f3]
  · unfold check_state
    rw [herr]
    simp only [Option.isSome_none, Bool.false_eq_true, if_false]
    rw [show alook p (local_dir_cleanup p
        { s with
          st := ⟨adel p s.st.local_files, adel p s.st.remote_files⟩,
          acts := s.acts ++ [Action.deleteLocal p] }).st.remote_files = none from by
      rw [f1]; exact alook_adel_self p s.st.remote_files]
    simp only [Option.isNone_none, if_true]
    exact upload_acts cfg p _ herr

open Synchronator in
/-- C10 witness: the theorem applied to a concrete tracked file `a` whose
removal fails; a second file `b` keeps the parent directory non-empty. -/
theorem c10_witness :
    alook "a" (delete_local cfg_rmfail "a" sample_tracked_pair).st.local_files = none ∧
    alook "a" (delete_local cfg_rmfail "a" sample_tracked_pair).st.remote_files = none ∧
    (delete_local cfg_rmfail "a" sample_tracked_pair).lfs.files =
      sample_tracked_pair.lfs.files ∧
    (check_state cfg_rmfail "a" (delete_local cfg_rmfail "a" sample_tracked_pair)).acts =
      (delete_local cfg_rmfail "a" sample_tracked_pair).acts ++ [Action.upload "a"] := by
  obtain ⟨h1, h2, h3, h4⟩ := c10_theorem cfg_rmfail "a" sample_tracked_pair rfl
    (by decide) (by decide) rfl
  exact ⟨h1, h2, h3, h4 (by decide)⟩

namespace Synchronator

theorem upload_pair (cfg : Cfg) (p : String) (s : S)
    (heq : s.st.local_files = s.st.remote_files) :
    (upload cfg p s).st.local_files = (upload cfg p s).st.remote_files := by
  unfold upload
  by_cases h0 : s.err.isSome
  · simp only [h0, if_true]
    exact heq
  · simp only [h0, Bool.false_eq_true, if_false]
    cases hm : getmtime (emit (Action.upload p) s).lfs p with
    | none => exact heq
    | some t =>
      by_cases hu : cfg.uploadOk p = true
      · simp only [hu, if_true]
        exact congrArg (aset p _) heq
      · simp only [Bool.not_eq_true] at hu
        simp only [hu, Bool.false_eq_true, if_false]
        exact heq

theorem download_pair (cfg : Cfg) (p : String) (s : S)
    (heq : s.st.local_files = s.st.remote_files) :
    (download_remote cfg p s).st.local_files = (download_remote cfg p s).st.remote_files := by
  unfold download_remote
  by_cases h0 : s.err.isSome
  · simp only [h0, if_true]
    exact heq
  · simp only [h0, Bool.false_eq_true, if_false]
    by_cases hd : cfg.downloadOk p = true
    · simp only [hd, if_true]
      split <;> split <;>
        first
          | exact congrArg (aset p _) heq
          | exact heq
    · simp only [Bool.not_eq_true] at hd
      simp only [hd, Bool.false_eq_true, if_false]
      split <;> exact heq

theorem delete_local_pair (cfg : Cfg) (p : String) (s : S)
    (heq : s.st.local_files = s.st.remote_files) :
    (delete_local cfg p s).st.local_files = (delete_local cfg p s).st.remote_files := by
  unfold delete_local
  by_cases h0 : s.err.isSome
  · simp only [h0, if_true]
    exact heq
  · simp only [h0, Bool.false_eq_true, if_false]
    by_cases hrm : cfg.removeOk p = true
    all_goals simp only [hrm, Bool.false_eq_true, if_true, if_false]
    all_goals
      cases hml : alook p s.st.local_files with
      | none =>
        dsimp only [emit]
        rw [hml]
        exact heq
      | some m =>
        have hmr : alook p s.st.remote_files = some m := by rw [← heq]; exact hml
        dsimp only [emit]
        rw [hml, hmr]
        rw [(local_dir_cleanup_fields p _).1]
        exact congrArg (adel p) heq

theorem delete_remote_pair (cfg : Cfg) (p : String) (s : S)
    (heq : s.st.local_files = s.st.remote_files) :
    (delete_remote cfg p s).st.local_files = (delete_remote cfg p s).st.remote_files := by
  unfold delete_remote
  by_cases h0 : s.err.isSome
  · simp only [h0, if_true]
    exact heq
  · simp only [h0, Bool.false_eq_true, if_false]
    split
    · cases hml : alook p s.st.local_files with
      | none =>
        dsimp only [emit]
        rw [hml]
        exact heq
      | some m =>
        have hmr : alook p s.st.remote_files = some m := by rw [← heq]; exact hml
        dsimp only [emit]
        rw [hml, hmr]
        rw [(remote_cascade_fields cfg _ _).1]
        rw [(local_dir_cleanup_fields p _).1]
        exact congrArg (adel p) heq
    · exact heq

end Synchronator

namespace Synchronator

theorem make_local_dir_absent (cfg : Cfg) (p : String) (s : S)
    (h : existsLocal s.lfs p = false) :
    (make_local_dir cfg p s).st = s.st := by
  unfold make_local_dir
  by_cases h0 : s.err.isSome
  · simp [h0]
  · simp only [h0, Bool.false_eq_true, if_false, h, Bool.not_false, if_true]

end Synchronator

open Synchronator in
/-- C7 (amended): upload, download, local delete, and remote delete do
write the two bookkeeping tables together — each preserves the invariant
that `local_files` and `remote_files` are the same mapping — and folder
creation on a path that does not exist locally (the only way the program
reaches it) touches neither table; but folder creation on a path occupied
by a local file removes the entry from `local_files` only, so it breaks
the invariant (see the counterexample). -/
theorem c7_theorem (cfg : Cfg) (p : String) (s : S)
    (heq : s.st.local_files = s.st.remote_files) :
    (upload cfg p s).st.local_files = (upload cfg p s).st.remote_files ∧
    (download_remote cfg p s).st.local_files = (download_remote cfg p s).st.remote_files ∧
    (delete_local cfg p s).st.local_files = (delete_local cfg p s).st.remote_files ∧
    (delete_remote cfg p s).st.local_files = (delete_remote cfg p s).st.remote_files ∧
    (existsLocal s.lfs p = false →
      (make_local_dir cfg p s).st.local_files = (make_local_dir cfg p s).st.remote_files) := by
  refine ⟨upload_pair cfg p s heq, download_pair cfg p s heq, delete_local_pair cfg p s heq,
    delete_remote_pair cfg p s heq, fun h => ?_⟩
  rw [make_local_dir_absent cfg p s h]
  exact heq

open Synchronator in
/-- C7 witness: the pairing theorem applied to a concrete state whose two
tables agree, for an upload of the new file `a` and a folder creation at
the absent path `sub`. -/
theorem c7_witness :
    (upload cfg_all "a" sample_two_new).st.local_files =
      (upload cfg_all "a" sample_two_new).st.remote_files ∧
    (make_local_dir cfg_all "sub" sample_two_new).st.local_files =
      (make_local_dir cfg_all "sub" sample_two_new).st.remote_files := by
  obtain ⟨h1, _, _, _, h5⟩ := c7_theorem cfg_all "a" sample_two_new rfl
  obtain ⟨_, _, _, _, h5b⟩ := c7_theorem cfg_all "sub" sample_two_new rfl
  exact ⟨h1, h5b (by decide)⟩

namespace Synchronator

/-- Once a preferred side is memoized, `handle_conflict` resolves with that
side and returns the memo unchanged, without prompting. -/
theorem handle_conflict_memo (cfg : Cfg) (p : String) (b : Bool) (s : S) :
    (handle_conflict cfg p (some b) s).1 = some b ∧
    (handle_conflict cfg p (some b) s).2 =
      (if s.err.isSome then s else apply_conflict_choice cfg p b s) := by
  unfold handle_conflict
  by_cases h0 : s.err.isSome
  · simp [h0]
  · simp [h0]

/-- An unanswered conflict prompts once, resolves with
`answer.startswith('r')`, and memoizes that side iff the answer ends in
`'a'`. -/
theorem handle_conflict_fresh (cfg : Cfg) (p : String) (s : S) (h0 : s.err = none) :
    (handle_conflict cfg p none s).1 =
      (if cfg.answers p = Ans.la ∨ cfg.answers p = Ans.ra then
        some (decide (cfg.answers p = Ans.r ∨ cfg.answers p = Ans.ra)) else none) ∧
    (handle_conflict cfg p none s).2 =
      apply_conflict_choice cfg p (decide (cfg.answers p = Ans.r ∨ cfg.answers p = Ans.ra))
        (emit (Action.promptConflict p) s) := by
  unfold handle_conflict
  simp only [h0, Option.isSome_none, Bool.false_eq_true, if_false]
  split <;> exact ⟨rfl, rfl⟩

end Synchronator

namespace Synchronator

theorem actsExtend_refl (s : S) (P : Action → Bool) : actsExtend s s P :=
  ⟨[], by simp, by simp⟩

theorem actsExtend_of_eq (s s' : S) (P : Action → Bool) (h : s'.acts = s.acts) :
    actsExtend s s' P :=
  ⟨[], by simp [h], by simp⟩

theorem actsExtend_trans (s1 s2 s3 : S) (P : Action → Bool)
    (h1 : actsExtend s1 s2 P) (h2 : actsExtend s2 s3 P) : actsExtend s1 s3 P := by
  obtain ⟨d1, e1, p1⟩ := h1
  obtain ⟨d2, e2, p2⟩ := h2
  refine ⟨d1 ++ d2, by rw [e2, e1, List.append_assoc], fun a ha => ?_⟩
  rcases List.mem_append.mp ha with h | h
  · exact p1 a h
  · exact p2 a h

theorem download_acts (cfg : Cfg) (p : String) (s : S) (h0 : s.err = none) :
    (download_remote cfg p s).acts = s.acts ++ [Action.download p] := by
  unfold download_remote
  simp only [h0, Option.isSome_none, Bool.false_eq_true, if_false]
  by_cases hd : cfg.downloadOk p = true
  · simp only [hd, if_true]
    split <;> split <;> simp [emit, fail]
  · simp only [Bool.not_eq_true] at hd
    simp only [hd, Bool.false_eq_true, if_false]
    split <;> simp [emit, fail]

theorem upload_acts_cases (cfg : Cfg) (p : String) (s : S) :
    (upload cfg p s).acts = s.acts ∨ (upload cfg p s).acts = s.acts ++ [Action.upload p] := by
  cases h0 : s.err with
  | none => exact Or.inr (upload_acts cfg p s h0)
  | some e =>
    left
    unfold upload
    simp [h0]

theorem download_acts_cases (cfg : Cfg) (p : String) (s : S) :
    (download_remote cfg p s).acts = s.acts ∨
    (download_remote cfg p s).acts = s.acts ++ [Action.download p] := by
  cases h0 : s.err with
  | none => exact Or.inr (download_acts cfg p s h0)
  | some e =>
    left
    unfold download_remote
    simp [h0]

theorem make_local_dir_acts (cfg : Cfg) (p : String) (s : S) :
    (make_local_dir cfg p s).acts = s.acts := by
  unfold make_local_dir
  by_cases h0 : s.err.isSome
  · simp [h0]
  · simp only [h0, Bool.false_eq_true, if_false]
    split
    · rfl
    · split
      · split
        · dsimp only [fail]
          split <;> rfl
        · rfl
      · rfl

theorem delete_local_acts (cfg : Cfg) (p : String) (s : S) :
    (delete_local cfg p s).acts = s.acts ∨
    (delete_local cfg p s).acts = s.acts ++ [Action.deleteLocal p] := by
  unfold delete_local
  by_cases h0 : s.err.isSome
  · simp [h0]
  · right
    simp only [h0, Bool.false_eq_true, if_false]
    repeat' split
    all_goals first
      | rfl
      | (rw [(local_dir_cleanup_fields p _).2.1]; rfl)

theorem apply_conflict_choice_extend (cfg : Cfg) (p : String) (b : Bool) (s : S)
    (P : Action → Bool) (hu : P (Action.upload p) = true) (hd : P (Action.download p) = true) :
    actsExtend s (apply_conflict_choice cfg p b s) P := by
  unfold apply_conflict_choice
  cases b with
  | true =>
    simp only [if_true]
    rcases download_acts_cases cfg p s with h | h
    · exact actsExtend_of_eq _ _ _ h
    · exact ⟨[Action.download p], h, by simpa⟩
  | false =>
    simp only [Bool.false_eq_true, if_false]
    rcases upload_acts_cases cfg p s with h | h
    · exact actsExtend_of_eq _ _ _ h
    · exact ⟨[Action.upload p], h, by simpa⟩

end Synchronator

namespace Synchronator

/-- With a memoized preferred side, one entry step never prompts and keeps
the memo. -/
theorem process_entry_memo (cfg : Cfg) (b : Bool) (acc : Option Bool × List String × S)
    (e : Entry) (hpr : acc.1 = some b) :
    (process_entry cfg acc e).1 = some b ∧
    actsExtend acc.2.2 (process_entry cfg acc e).2.2 promptFree := by
  obtain ⟨pr, cur, s⟩ := acc
  simp only at hpr
  subst hpr
  unfold process_entry
  by_cases h0 : s.err.isSome
  · simp only [h0, if_true]
    exact ⟨trivial, actsExtend_refl _ _⟩
  · simp only [h0, Bool.false_eq_true, if_false]
    repeat' split
    all_goals first
      | exact ⟨rfl, actsExtend_refl _ _⟩
      | exact ⟨rfl, actsExtend_of_eq _ _ _ rfl⟩
      | (refine ⟨rfl, ?_⟩
         rcases download_acts_cases cfg _ s with h | h
         · exact actsExtend_of_eq _ _ _ h
         · exact ⟨[Action.download _], h, by simp [promptFree]⟩)
      | (obtain ⟨hm1, hm2⟩ := handle_conflict_memo cfg _ b s
         refine ⟨hm1, ?_⟩
         rw [hm2]
         simp only [h0, Bool.false_eq_true, if_false]
         exact apply_conflict_choice_extend cfg _ b s promptFree rfl rfl)
      | (rename_i q hq
         refine ⟨rfl, [Action.mkdir q], ?_, by simp [promptFree]⟩
         rw [make_local_dir_acts cfg q (emit (Action.mkdir q) s)]
         rfl)

/-- With a memoized preferred side, a whole page of entries is processed
without a single prompt, and the memo survives to the end of the page. -/
theorem fold_entries_memo (cfg : Cfg) (b : Bool) (entries : List Entry) :
    ∀ (cur : List String) (s : S),
    (entries.foldl (process_entry cfg) (some b, cur, s)).1 = some b ∧
    actsExtend s ((entries.foldl (process_entry cfg) (some b, cur, s)).2.2) promptFree := by
  induction entries with
  | nil => intro cur s; exact ⟨rfl, actsExtend_refl _ _⟩
  | cons e rest ih =>
    intro cur s
    rw [List.foldl_cons]
    obtain ⟨h1, h2⟩ := process_entry_memo cfg b (some b, cur, s) e rfl
    have heta : ((process_entry cfg (some b, cur, s) e).1,
        (process_entry cfg (some b, cur, s) e).2.1,
        (process_entry cfg (some b, cur, s) e).2.2) =
        process_entry cfg (some b, cur, s) e := rfl
    rw [h1] at heta
    rw [← heta]
    obtain ⟨i1, i2⟩ := ih (process_entry cfg (some b, cur, s) e).2.1
      (process_entry cfg (some b, cur, s) e).2.2
    exact ⟨i1, actsExtend_trans _ _ _ _ h2 i2⟩

end Synchronator

open Synchronator in
/-- C3 (amended): every conflicted path goes through `handle_conflict`, and
never auto-resolves — a memoized side is applied explicitly and an
unanswered conflict prompts; once a "for all remaining" answer (`la`/`ra`)
sets the batch preference, it is returned as the memo and every subsequent
conflict **within the same page of the listing** is resolved with that side
without prompting; but the preference is a local variable of
`__process_remote_entries`, so it resets at every page boundary and
conflicts on later pages prompt anew (see the counterexample). -/
theorem c3_theorem (cfg : Cfg) (p : String) (b : Bool) (s : S) (entries : List Entry)
    (cur : List String) (h0 : s.err = none) :
    ((handle_conflict cfg p (some b) s).1 = some b ∧
     (handle_conflict cfg p (some b) s).2 = apply_conflict_choice cfg p b s) ∧
    ((cfg.answers p = Ans.la ∨ cfg.answers p = Ans.ra) →
      (handle_conflict cfg p none s).1 =
        some (decide (cfg.answers p = Ans.r ∨ cfg.answers p = Ans.ra))) ∧
    ((entries.foldl (process_entry cfg) (some b, cur, s)).1 = some b ∧
      actsExtend s ((entries.foldl (process_entry cfg) (some b, cur, s)).2.2) promptFree) := by
  refine ⟨⟨(handle_conflict_memo cfg p b s).1, ?_⟩, fun ha => ?_, fold_entries_memo cfg b entries cur s⟩
  · rw [(handle_conflict_memo cfg p b s).2]
    simp [h0]
  · rw [(handle_conflict_fresh cfg p s h0).1]
    simp [ha]

open Synchronator in
/-- C3 witness: the amended theorem applied to the conflicted file `b` of
the sample state with the batch preference already set to "remote". -/
theorem c3_witness :
    (handle_conflict cfg_all "b" (some true) sample_conflicts).1 = some true ∧
    (([Entry.file "b" 8]).foldl (process_entry cfg_all)
      (some true, [], sample_conflicts)).1 = some true := by
  obtain ⟨⟨i1, _⟩, _, iii1, _⟩ :=
    c3_theorem cfg_all "b" true sample_conflicts [Entry.file "b" 8] [] rfl
  exact ⟨i1, iii1⟩

namespace Synchronator

theorem alook_aset_isSome {α : Type} (k q : String) (v : α) (l : List (String × α))
    (h : (alook q l).isSome) : (alook q (aset k v l)).isSome := by
  by_cases hq : q = k
  · subst hq
    rw [alook_aset_self]
    rfl
  · rw [alook_aset_ne k q v l hq]
    exact h

theorem keyPres_refl (s : S) : keyPres s s :=
  ⟨fun _ h => h, fun _ h => h, fun _ h => h⟩

theorem keyPres_trans (s1 s2 s3 : S) (h1 : keyPres s1 s2) (h2 : keyPres s2 s3) :
    keyPres s1 s3 :=
  ⟨fun q h => h2.1 q (h1.1 q h), fun q h => h2.2.1 q (h1.2.1 q h),
   fun q h => h2.2.2 q (h1.2.2 q h)⟩

theorem C1Pres_refl (s : S) : C1Pres s s := ⟨keyPres_refl s, actsExtend_refl s delFree⟩

theorem C1Pres_of_parts (s s' : S)
    (h1 : s'.st.local_files = s.st.local_files) (h2 : s'.st.remote_files = s.st.remote_files)
    (h3 : s'.lfs.files = s.lfs.files) (h4 : s'.acts = s.acts) : C1Pres s s' :=
  ⟨⟨fun q h => by rw [h1]; exact h, fun q h => by rw [h2]; exact h,
    fun q h => by rw [h3]; exact h⟩, actsExtend_of_eq _ _ _ h4⟩

theorem C1Pres_trans (s1 s2 s3 : S) (h1 : C1Pres s1 s2) (h2 : C1Pres s2 s3) :
    C1Pres s1 s3 :=
  ⟨keyPres_trans _ _ _ h1.1 h2.1, actsExtend_trans _ _ _ _ h1.2 h2.2⟩

theorem upload_c1 (cfg : Cfg) (p : String) (s : S) : C1Pres s (upload cfg p s) := by
  unfold upload
  by_cases h0 : s.err.isSome
  · simp only [h0, if_true]
    exact C1Pres_refl s
  · simp only [h0, Bool.false_eq_true, if_false]
    have hext : ∀ s2 : S, s2.acts = s.acts ++ [Action.upload p] → actsExtend s s2 delFree :=
      fun s2 h => ⟨[Action.upload p], h, by simp [delFree]⟩
    cases hm : getmtime (emit (Action.upload p) s).lfs p with
    | none => exact ⟨keyPres_refl s, hext _ (by rfl)⟩
    | some t =>
      by_cases hu : cfg.uploadOk p = true
      · simp only [hu, if_true]
        refine ⟨⟨fun q h => alook_aset_isSome p q _ _ h, fun q h => alook_aset_isSome p q _ _ h,
          fun q h => h⟩, hext _ (by rfl)⟩
      · simp only [Bool.not_eq_true] at hu
        simp only [hu, Bool.false_eq_true, if_false]
        exact ⟨keyPres_refl s, hext _ (by rfl)⟩

theorem download_c1 (cfg : Cfg) (p : String) (s : S) :
    C1Pres s (download_remote cfg p s) := by
  unfold download_remote
  by_cases h0 : s.err.isSome
  · simp only [h0, if_true]
    exact C1Pres_refl s
  · simp only [h0, Bool.false_eq_true, if_false]
    have hext : ∀ s2 : S, s2.acts = s.acts ++ [Action.download p] → actsExtend s s2 delFree :=
      fun s2 h => ⟨[Action.download p], h, by simp [delFree]⟩
    by_cases hd : cfg.downloadOk p = true
    · simp only [hd, if_true]
      split <;> split <;>
        first
          | exact ⟨⟨fun q h => alook_aset_isSome p q _ _ h,
              fun q h => alook_aset_isSome p q _ _ h,
              fun q h => alook_aset_isSome p q _ _ h⟩, hext _ (by rfl)⟩
          | exact ⟨keyPres_refl s, hext _ (by rfl)⟩
    · simp only [Bool.not_eq_true] at hd
      simp only [hd, Bool.false_eq_true, if_false]
      split <;> exact ⟨keyPres_refl s, hext _ (by rfl)⟩

theorem apply_conflict_choice_c1 (cfg : Cfg) (p : String) (b : Bool) (s : S) :
    C1Pres s (apply_conflict_choice cfg p b s) := by
  unfold apply_conflict_choice
  cases b with
  | true => simpa using download_c1 cfg p s
  | false => simpa using upload_c1 cfg p s

theorem handle_conflict_c1 (cfg : Cfg) (p : String) (pr : Option Bool) (s : S) :
    C1Pres s (handle_conflict cfg p pr s).2 := by
  cases pr with
  | some b =>
    rw [(handle_conflict_memo cfg p b s).2]
    split
    · exact C1Pres_refl s
    · exact apply_conflict_choice_c1 cfg p b s
  | none =>
    by_cases h0 : s.err = none
    · rw [(handle_conflict_fresh cfg p s h0).2]
      exact C1Pres_trans s (emit (Action.promptConflict p) s) _
        ⟨keyPres_refl s, ⟨[Action.promptConflict p], rfl, by simp [delFree]⟩⟩
        (apply_conflict_choice_c1 cfg p _ _)
    · have hid : handle_conflict cfg p none s = (none, s) := by
        unfold handle_conflict
        simp [Option.isSome_iff_ne_none.mpr h0]
      rw [hid]
      exact C1Pres_refl s

theorem make_local_dir_guard_c1 (cfg : Cfg) (p : String) (s : S)
    (h : existsLocal s.lfs p = false) : C1Pres s (make_local_dir cfg p s) := by
  rw [show make_local_dir cfg p s =
      (if s.err.isSome then s
       else { s with lfs := { s.lfs with dirs := s.lfs.dirs ++ makedirsList p } }) from by
    unfold make_local_dir
    by_cases h0 : s.err.isSome
    · simp [h0]
    · simp [h0, h]]
  split
  · exact C1Pres_refl s
  · exact C1Pres_of_parts _ _ rfl rfl rfl rfl

end Synchronator

namespace Synchronator

theorem fail_c1 (e : Err) (s : S) : C1Pres s (fail e s) :=
  C1Pres_of_parts _ _ rfl rfl rfl rfl

theorem process_entry_c1 (cfg : Cfg) (acc : Option Bool × List String × S) (e : Entry) :
    C1Pres acc.2.2 (process_entry cfg acc e).2.2 := by
  obtain ⟨pr, cur, s⟩ := acc
  unfold process_entry
  by_cases h0 : s.err.isSome
  · simp only [h0, if_true]
    exact C1Pres_refl s
  · simp only [h0, Bool.false_eq_true, if_false]
    repeat' split
    all_goals first
      | exact C1Pres_refl s
      | exact download_c1 cfg _ s
      | exact fail_c1 _ s
      | exact handle_conflict_c1 cfg _ pr s
      | (rename_i q hq
         refine C1Pres_trans s (emit (Action.mkdir q) s) _
           ⟨keyPres_refl s, ⟨[Action.mkdir q], rfl, by simp [delFree]⟩⟩
           (make_local_dir_guard_c1 cfg q (emit (Action.mkdir q) s) ?_)
         simp only [Bool.not_eq_true'] at hq
         exact hq)

theorem fold_entries_c1 (cfg : Cfg) (entries : List Entry) :
    ∀ (acc : Option Bool × List String × S),
    C1Pres acc.2.2 ((entries.foldl (process_entry cfg) acc).2.2) := by
  induction entries with
  | nil => intro acc; exact C1Pres_refl _
  | cons e rest ih =>
    intro acc
    rw [List.foldl_cons]
    exact C1Pres_trans _ _ _ (process_entry_c1 cfg acc e) (ih (process_entry cfg acc e))

theorem pages_fold_c1 (cfg : Cfg) (pages : List (List Entry)) :
    ∀ (acc : List String × S),
    C1Pres acc.2
      ((pages.foldl (fun (acc : List String × S) page =>
        process_remote_entries cfg page acc.1 acc.2) acc).2) := by
  induction pages with
  | nil => intro acc; exact C1Pres_refl _
  | cons page rest ih =>
    intro acc
    rw [List.foldl_cons]
    refine C1Pres_trans _ _ _ ?_ (ih (process_remote_entries cfg page acc.1 acc.2))
    unfold process_remote_entries
    exact fold_entries_c1 cfg page (none, acc.1, acc.2)

theorem check_local_err (cfg : Cfg) (s : S) (h : s.err.isSome) : check_local cfg s = s := by
  unfold check_local
  simp [h]

theorem execute_delta_trunc (cfg : Cfg) (pages : List (List Entry)) (s : S) :
    C1Pres s (execute_delta cfg pages true s) ∧
    (execute_delta cfg pages true s).err.isSome := by
  unfold execute_delta
  by_cases h0 : s.err.isSome
  · simp only [h0, if_true]
    exact ⟨C1Pres_refl s, trivial⟩
  · simp only [h0, Bool.false_eq_true, if_false]
    have hc1 := pages_fold_c1 cfg pages ([], s)
    by_cases he : (pages.foldl (fun (acc : List String × S) page =>
        process_remote_entries cfg page acc.1 acc.2) ([], s)).2.err.isSome
    · simp only [he, if_true]
      exact ⟨hc1, trivial⟩
    · simp only [he, Bool.false_eq_true, if_false, if_true]
      exact ⟨C1Pres_trans _ _ _ hc1 (fail_c1 _ _), rfl⟩

end Synchronator

open Synchronator in
/-- C1 (confirmed): if pagination fails before the listing is drained (the
run is truncated), the re-raised exception aborts the remote pass before
the deletion inference and skips the local pass, so the whole run deletes
no local file (no `deleteLocal` action is emitted, and every local file key
survives) and removes no SyncRecord (every key of both bookkeeping tables
survives); the run ends with the error pending rather than treating the
partial listing as complete. -/
theorem c1_theorem (cfg : Cfg) (pages : List (List Entry)) (s : S) :
    (run_sync cfg pages true s).err.isSome ∧
    (∃ d, (run_sync cfg pages true s).acts = s.acts ++ d ∧ ∀ a ∈ d, delFree a = true) ∧
    (∀ q, (alook q s.st.local_files).isSome →
      (alook q (run_sync cfg pages true s).st.local_files).isSome) ∧
    (∀ q, (alook q s.st.remote_files).isSome →
      (alook q (run_sync cfg pages true s).st.remote_files).isSome) ∧
    (∀ q, (alook q s.lfs.files).isSome →
      (alook q (run_sync cfg pages true s).lfs.files).isSome) := by
  obtain ⟨⟨k1, k2, k3⟩, hext⟩ := (execute_delta_trunc cfg pages s).1
  have herr := (execute_delta_trunc cfg pages s).2
  unfold run_sync
  rw [check_local_err cfg _ herr]
  exact ⟨herr, hext, k1, k2, k3⟩

open Synchronator in
/-- C1 witness: the theorem applied to a concrete truncated run; the stale
record `gone` survives the pass untouched. -/
theorem c1_witness :
    (run_sync cfg_all [[Entry.file "x" 9]] true sample_stale).err.isSome ∧
    (alook "gone" (run_sync cfg_all [[Entry.file "x" 9]] true
      sample_stale).st.local_files).isSome := by
  obtain ⟨h1, _, h3, _, _⟩ := c1_theorem cfg_all [[Entry.file "x" 9]] sample_stale
  exact ⟨h1, h3 "gone" (by decide)⟩

namespace Synchronator

theorem alook_mem {α : Type} (p : String) (v : α) (l : List (String × α))
    (h : alook p l = some v) : (p, v) ∈ l := by
  induction l with
  | nil => simp [alook] at h
  | cons kv t ih =>
    by_cases hk : kv.1 = p
    · simp only [alook, hk, if_true, Option.some.injEq] at h
      have hkv : kv = (p, v) := by
        rw [← hk, ← h]
      rw [← hkv]
      exact List.mem_cons_self kv t
    · simp only [alook, hk, if_false] at h
      exact List.mem_cons_of_mem kv (ih h)

theorem mem_fst_alook_isSome {α : Type} (p : String) (l : List (String × α))
    (h : p ∈ l.map Prod.fst) : (alook p l).isSome := by
  induction l with
  | nil => simp at h
  | cons kv t ih =>
    rcases List.mem_map.mp h with ⟨kv2, hm, he⟩
    rcases List.mem_cons.mp hm with h1 | h1
    · subst h1
      simp [alook, he]
    · by_cases hk : kv.1 = p
      · simp [alook, hk]
      · simp only [alook, hk, if_false]
        exact ih (List.mem_map.mpr ⟨kv2, h1, he⟩)

theorem alook_isSome_mem_fst {α : Type} (p : String) (l : List (String × α))
    (h : (alook p l).isSome) : p ∈ l.map Prod.fst := by
  obtain ⟨v, hv⟩ := Option.isSome_iff_exists.mp h
  exact List.mem_map.mpr ⟨(p, v), alook_mem p v l hv, rfl⟩

theorem mem_aset {α : Type} {k p : String} {v w : α} {l : List (String × α)}
    (hm : (p, w) ∈ aset k v l) :
    (p = k ∧ w = v) ∨ ((p, w) ∈ l ∧ p ≠ k) := by
  unfold aset at hm
  split at hm
  · rcases List.mem_map.mp hm with ⟨kv, hkv, he⟩
    by_cases hk : kv.1 = k
    · rw [if_pos hk] at he
      cases he
      exact Or.inl ⟨rfl, rfl⟩
    · rw [if_neg hk] at he
      subst he
      exact Or.inr ⟨hkv, hk⟩
  · rename_i hs
    rcases List.mem_append.mp hm with h1 | h1
    · refine Or.inr ⟨h1, fun hpk => ?_⟩
      subst hpk
      exact hs (mem_fst_alook_isSome p l (List.mem_map.mpr ⟨(p, w), h1, rfl⟩))
    · simp only [List.mem_singleton] at h1
      cases h1
      exact Or.inl ⟨rfl, rfl⟩

theorem WfKeys_aset {α : Type} (k : String) (v : α) (l : List (String × α))
    (h : WfKeys l) : WfKeys (aset k v l) := by
  intro p w hm
  rcases mem_aset hm with ⟨hp, hw⟩ | ⟨hmem, hne⟩
  · subst hp
    subst hw
    exact alook_aset_self p w l
  · rw [alook_aset_ne k p v l hne]
    exact h p w hmem

theorem WfKeys_adel {α : Type} (k : String) (l : List (String × α))
    (h : WfKeys l) : WfKeys (adel k l) := by
  intro p w hm
  have hmem : (p, w) ∈ l := (List.mem_filter.mp hm).1
  have hne : p ≠ k := by
    have := (List.mem_filter.mp hm).2
    simpa using this
  rw [alook_adel_ne k p l hne]
  exact h p w hmem

theorem fileKeys_append (a b : List Entry) :
    fileKeys (a ++ b) = fileKeys a ++ fileKeys b := by
  induction a with
  | nil => simp [fileKeys]
  | cons e t ih =>
    cases e with
    | file p r => simp [fileKeys, ih]
    | folder p => simp [fileKeys, ih]

theorem fileKeys_remote_entries (w : RemoteFs) :
    fileKeys (remote_entries w) = w.files.map Prod.fst := by
  unfold remote_entries
  rw [fileKeys_append]
  have h2 : fileKeys (w.dirs.map Entry.folder) = [] := by
    induction w.dirs with
    | nil => rfl
    | cons d t ih => simp [fileKeys, ih]
  rw [h2, List.append_nil]
  induction w.files with
  | nil => rfl
  | cons kv t ih => simp [fileKeys, ih]

theorem file_mem_remote_entries (w : RemoteFs) (p : String) (r : Nat)
    (h : Entry.file p r ∈ remote_entries w) : (p, r) ∈ w.files := by
  unfold remote_entries at h
  rcases List.mem_append.mp h with h1 | h1
  · rcases List.mem_map.mp h1 with ⟨kv, hkv, he⟩
    have he2 : kv = (p, r) := by
      cases he
      rfl
    rw [← he2]
    exact hkv
  · rcases List.mem_map.mp h1 with ⟨d, _, he⟩
    simp at he

theorem mem_filelist (fs : LocalFs) (p : String) (t : Nat)
    (h1 : alook p fs.files = some t) (h2 : included_path p = true) :
    p ∈ filelist fs := by
  unfold filelist
  refine List.mem_filter.mpr ⟨?_, h2⟩
  exact List.mem_map.mpr ⟨(p, t), alook_mem p t fs.files h1, rfl⟩

theorem filelist_mem (fs : LocalFs) (p : String) (h : p ∈ filelist fs) :
    (alook p fs.files).isSome ∧ included_path p = true := by
  unfold filelist at h
  obtain ⟨hm, hi⟩ := List.mem_filter.mp h
  exact ⟨mem_fst_alook_isSome p fs.files hm, hi⟩

end Synchronator

namespace Synchronator

/-- The action trace never shrinks. -/
def actsGrow (s s' : S) : Prop := ∃ d, s'.acts = s.acts ++ d

theorem actsGrow_refl (s : S) : actsGrow s s := ⟨[], by simp⟩

theorem actsGrow_trans {s1 s2 s3 : S} (h1 : actsGrow s1 s2) (h2 : actsGrow s2 s3) :
    actsGrow s1 s3 := by
  obtain ⟨d1, e1⟩ := h1
  obtain ⟨d2, e2⟩ := h2
  exact ⟨d1 ++ d2, by rw [e2, e1, List.append_assoc]⟩

theorem actsGrow_mem {s s' : S} (h : actsGrow s s') (a : Action) (ha : a ∈ s.acts) :
    a ∈ s'.acts := by
  obtain ⟨d, e⟩ := h
  rw [e]
  exact List.mem_append_left d ha

theorem download_ok_shape (cfg : Cfg) (p : String) (s : S) (r : Nat)
    (h0 : s.err = none) (hd : cfg.downloadOk p = true) (hr : alook p s.rfs.files = some r) :
    (download_remote cfg p s).st.local_files = aset p ⟨r, s.clock⟩ s.st.local_files ∧
    (download_remote cfg p s).st.remote_files = aset p ⟨r, s.clock⟩ s.st.remote_files ∧
    (download_remote cfg p s).lfs.files = aset p s.clock s.lfs.files ∧
    (download_remote cfg p s).rfs = s.rfs ∧
    (download_remote cfg p s).err = none ∧
    (download_remote cfg p s).acts = s.acts ++ [Action.download p] ∧
    (download_remote cfg p s).clock = s.clock + 1 := by
  unfold download_remote
  simp only [h0, Option.isSome_none, Bool.false_eq_true, if_false, hd, if_true]
  by_cases hdir : (decide (parentDir p ≠ "") &&
      !existsLocal (emit (Action.download p) s).lfs (parentDir p)) = true
  · simp only [hdir, eq_self_iff_true, if_true]
    split
    all_goals rename_i heq
    all_goals simp only [emit] at heq
    all_goals rw [hr] at heq
    · cases heq; exact ⟨rfl, rfl, rfl, rfl, h0, rfl, rfl⟩
    · exact Option.noConfusion heq
  · simp only [Bool.not_eq_true] at hdir
    simp only [hdir, Bool.false_eq_true, if_false]
    split
    all_goals rename_i heq
    all_goals simp only [emit] at heq
    all_goals rw [hr] at heq
    · cases heq; exact ⟨rfl, rfl, rfl, rfl, h0, rfl, rfl⟩
    · exact Option.noConfusion heq

theorem upload_ok_shape (cfg : Cfg) (p : String) (s : S) (t : Nat)
    (h0 : s.err = none) (hu : cfg.uploadOk p = true) (ht : alook p s.lfs.files = some t) :
    (upload cfg p s).st.local_files = aset p ⟨s.clock, t⟩ s.st.local_files ∧
    (upload cfg p s).st.remote_files = aset p ⟨s.clock, t⟩ s.st.remote_files ∧
    (upload cfg p s).rfs.files = aset p s.clock s.rfs.files ∧
    (upload cfg p s).lfs = s.lfs ∧
    (upload cfg p s).err = none ∧
    (upload cfg p s).acts = s.acts ++ [Action.upload p] ∧
    (upload cfg p s).clock = s.clock + 1 := by
  unfold upload
  simp only [h0, Option.isSome_none, Bool.false_eq_true, if_false]
  rw [show getmtime (emit (Action.upload p) s).lfs p = some t from ht]
  simp only [hu, if_true]
  exact ⟨rfl, rfl, rfl, rfl, h0, rfl, rfl⟩

theorem check_state_skip (cfg : Cfg) (p : String) (s : S) (m : Meta) (t : Nat)
    (h0 : s.err = none) (hr : (alook p s.st.remote_files).isSome)
    (hl : alook p s.st.local_files = some m) (ht : alook p s.lfs.files = some t)
    (hle : t ≤ m.modified) :
    check_state cfg p s = s := by
  unfold check_state
  simp only [h0, Option.isSome_none, Bool.false_eq_true, if_false]
  rw [show (alook p s.st.remote_files).isNone = false by
    cases hx : alook p s.st.remote_files
    · rw [hx] at hr; simp at hr
    · rfl]
  simp only [Bool.false_eq_true, if_false]
  unfold check_local_update getmtime
  rw [ht, hl]
  simp [Nat.not_lt_of_le hle]

theorem check_state_upload_new (cfg : Cfg) (p : String) (s : S)
    (h0 : s.err = none) (hr : alook p s.st.remote_files = none) :
    check_state cfg p s = upload cfg p s := by
  unfold check_state
  simp [h0, hr]

theorem check_state_upload_changed (cfg : Cfg) (p : String) (s : S) (m : Meta) (t : Nat)
    (h0 : s.err = none) (hr : (alook p s.st.remote_files).isSome)
    (hl : alook p s.st.local_files = some m) (ht : alook p s.lfs.files = some t)
    (hgt : t > m.modified) :
    check_state cfg p s = upload cfg p s := by
  unfold check_state
  simp only [h0, Option.isSome_none, Bool.false_eq_true, if_false]
  rw [show (alook p s.st.remote_files).isNone = false by
    cases hx : alook p s.st.remote_files
    · rw [hx] at hr; simp at hr
    · rfl]
  simp only [Bool.false_eq_true, if_false]
  unfold check_local_update getmtime
  rw [ht, hl]
  simp [hgt]

theorem delete_local_shape (cfg : Cfg) (p : String) (s : S)
    (h0 : s.err = none) (hrm : cfg.removeOk p = true)
    (hl : (alook p s.st.local_files).isSome) (hr : (alook p s.st.remote_files).isSome) :
    (delete_local cfg p s).st.local_files = adel p s.st.local_files ∧
    (delete_local cfg p s).st.remote_files = adel p s.st.remote_files ∧
    (delete_local cfg p s).rfs = s.rfs ∧
    (delete_local cfg p s).lfs.files = adel p s.lfs.files ∧
    (delete_local cfg p s).acts = s.acts ++ [Action.deleteLocal p] ∧
    (delete_local cfg p s).clock = s.clock := by
  obtain ⟨ml, hml⟩ := Option.isSome_iff_exists.mp hl
  obtain ⟨mr, hmr⟩ := Option.isSome_iff_exists.mp hr
  unfold delete_local
  simp only [h0, Option.isSome_none, Bool.false_eq_true, if_false, hrm, if_true]
  dsimp only [emit]
  rw [hml, hmr]
  refine ⟨?_, ?_, ?_, ?_, ?_, ?_⟩
  · rw [(local_dir_cleanup_fields p _).1]
  · rw [(local_dir_cleanup_fields p _).1]
  · rw [(local_dir_cleanup_fields p _).2.2.2.1]
  · rw [(local_dir_cleanup_fields p _).2.2.1]
  · rw [(local_dir_cleanup_fields p _).2.1]
  · rw [(local_dir_cleanup_fields p _).2.2.2.2]

theorem remote_cascade_rfs_files (cfg : Cfg) (segs : List String) : ∀ (s : S),
    (remote_cascade cfg segs s).rfs.files = s.rfs.files := by
  induction segs with
  | nil => intro s; rfl
  | cons a rest ih =>
    intro s
    simp only [remote_cascade]
    repeat' split
    all_goals first
      | rfl
      | (rw [ih]; rfl)

theorem remote_cascade_grow (cfg : Cfg) (segs : List String) : ∀ (s : S),
    actsGrow s (remote_cascade cfg segs s) := by
  induction segs with
  | nil => intro s; exact actsGrow_refl s
  | cons a rest ih =>
    intro s
    simp only [remote_cascade]
    repeat' split
    all_goals first
      | exact actsGrow_refl _
      | exact ⟨[Action.warnRemoteDeleteFailed (joinPath (a :: rest).reverse)], rfl⟩
      | exact actsGrow_trans ⟨[Action.deleteRemoteDir (joinPath (a :: rest).reverse)], rfl⟩ (ih _)

theorem delete_remote_cases (cfg : Cfg) (p : String) (s : S)
    (h0 : s.err = none) (hd : cfg.deleteOk p = true) :
    ((alook p s.rfs.files).isSome ∧ (alook p s.st.local_files).isSome ∧
     (alook p s.st.remote_files).isSome ∧
     (delete_remote cfg p s).st.local_files = adel p s.st.local_files ∧
     (delete_remote cfg p s).st.remote_files = adel p s.st.remote_files ∧
     (delete_remote cfg p s).rfs.files = adel p s.rfs.files ∧
     (delete_remote cfg p s).lfs.files = s.lfs.files) ∨
    Action.warnRemoteDeleteFailed p ∈ (delete_remote cfg p s).acts := by
  unfold delete_remote
  simp only [h0, Option.isSome_none, Bool.false_eq_true, if_false]
  split
  · cases hml : alook p s.st.local_files with
    | none =>
      right
      dsimp only [emit]
      rw [hml]
      simp
    | some ml =>
      cases hmr : alook p s.st.remote_files with
      | none =>
        right
        dsimp only [emit]
        rw [hml, hmr]
        simp
      | some mr =>
        rename_i hcond
        left
        refine ⟨?_, rfl, rfl, ?_, ?_, ?_, ?_⟩
        · dsimp only [emit] at hcond
          simp only [Bool.and_eq_true] at hcond
          exact hcond.2
        all_goals dsimp only [emit]
        all_goals rw [hml, hmr]
        · rw [(remote_cascade_fields cfg _ _).1, (local_dir_cleanup_fields p _).1]
        · rw [(remote_cascade_fields cfg _ _).1, (local_dir_cleanup_fields p _).1]
        · rw [remote_cascade_rfs_files cfg _ _, (local_dir_cleanup_fields p _).2.2.2.1]
        · rw [(remote_cascade_fields cfg _ _).2.1, (local_dir_cleanup_fields p _).2.2.1]
  · right
    dsimp only [emit]
    simp

end Synchronator

namespace Synchronator

theorem upload_frozen (cfg : Cfg) (p : String) (s : S) (h : s.err.isSome) :
    upload cfg p s = s := by
  unfold upload
  simp [h]

theorem download_frozen (cfg : Cfg) (p : String) (s : S) (h : s.err.isSome) :
    download_remote cfg p s = s := by
  unfold download_remote
  simp [h]

theorem delete_local_frozen (cfg : Cfg) (p : String) (s : S) (h : s.err.isSome) :
    delete_local cfg p s = s := by
  unfold delete_local
  simp [h]

theorem delete_remote_frozen (cfg : Cfg) (p : String) (s : S) (h : s.err.isSome) :
    delete_remote cfg p s = s := by
  unfold delete_remote
  simp [h]

theorem check_state_frozen (cfg : Cfg) (p : String) (s : S) (h : s.err.isSome) :
    check_state cfg p s = s := by
  unfold check_state
  simp [h]

theorem process_entry_frozen (cfg : Cfg) (acc : Option Bool × List String × S) (e : Entry)
    (h : acc.2.2.err.isSome) : process_entry cfg acc e = acc := by
  unfold process_entry
  simp [h]

theorem entries_fold_frozen (cfg : Cfg) (es : List Entry) :
    ∀ (acc : Option Bool × List String × S), acc.2.2.err.isSome →
    es.foldl (process_entry cfg) acc = acc := by
  induction es with
  | nil => intro acc _; rfl
  | cons e t ih =>
    intro acc h
    rw [List.foldl_cons, process_entry_frozen cfg acc e h]
    exact ih acc h

theorem process_remote_entries_frozen (cfg : Cfg) (page : List Entry) (cur : List String)
    (s : S) (h : s.err.isSome) : process_remote_entries cfg page cur s = (cur, s) := by
  unfold process_remote_entries
  rw [entries_fold_frozen cfg page (none, cur, s) h]

theorem pages_fold_frozen (cfg : Cfg) (pages : List (List Entry)) :
    ∀ (acc : List String × S), acc.2.err.isSome →
    pages.foldl (fun (acc : List String × S) page =>
      process_remote_entries cfg page acc.1 acc.2) acc = acc := by
  induction pages with
  | nil => intro acc _; rfl
  | cons pg t ih =>
    intro acc h
    rw [List.foldl_cons]
    have : process_remote_entries cfg pg acc.1 acc.2 = (acc.1, acc.2) :=
      process_remote_entries_frozen cfg pg acc.1 acc.2 h
    rw [this]
    exact ih (acc.1, acc.2) h

theorem delta_fold_frozen (cfg : Cfg) (cur : List String) (ks : List String) :
    ∀ (s : S), s.err.isSome →
    ks.foldl (fun s p =>
      if s.err.isSome then s else
      if !(cur.contains p) && (alook p s.st.local_files).isSome then delete_local cfg p s
      else s) s = s := by
  induction ks with
  | nil => intro s _; rfl
  | cons k t ih =>
    intro s h
    rw [List.foldl_cons]
    simp only [h, if_true]
    exact ih s h

theorem csfold_frozen (cfg : Cfg) (fl : List String) :
    ∀ (s : S), s.err.isSome →
    fl.foldl (fun s p => check_state cfg p s) s = s := by
  induction fl with
  | nil => intro s _; rfl
  | cons k t ih =>
    intro s h
    rw [List.foldl_cons, check_state_frozen cfg k s h]
    exact ih s h

theorem drfold_frozen (cfg : Cfg) (fl : List String) (old : List String) :
    ∀ (s : S), s.err.isSome →
    old.foldl (fun s p => if !(fl.contains p) then delete_remote cfg p s else s) s = s := by
  induction old with
  | nil => intro s _; rfl
  | cons k t ih =>
    intro s h
    rw [List.foldl_cons]
    by_cases hk : (!(fl.contains k)) = true
    · rw [if_pos hk, delete_remote_frozen cfg k s h]
      exact ih s h
    · rw [if_neg hk]
      exact ih s h

theorem process_entry_file_new (cfg : Cfg) (pr : Option Bool) (cur : List String) (s : S)
    (p : String) (r : Nat) (h0 : s.err = none)
    (hml : alook p s.st.local_files = none)
    (herr2 : (download_remote cfg p s).err = none) :
    process_entry cfg (pr, cur, s) (Entry.file p r) = (pr, cur ++ [p], download_remote cfg p s) := by
  unfold process_entry
  simp [h0, hml, herr2]

theorem process_entry_file_same (cfg : Cfg) (pr : Option Bool) (cur : List String) (s : S)
    (p : String) (r : Nat) (m : Meta) (h0 : s.err = none)
    (hml : alook p s.st.local_files = some m) (hrev : r = m.rev) :
    process_entry cfg (pr, cur, s) (Entry.file p r) = (pr, cur ++ [p], s) := by
  unfold process_entry
  simp [h0, hml, hrev]

theorem process_entry_file_nofile (cfg : Cfg) (pr : Option Bool) (cur : List String) (s : S)
    (p : String) (r : Nat) (m : Meta) (h0 : s.err = none)
    (hml : alook p s.st.local_files = some m) (hrev : r ≠ m.rev)
    (hmt : getmtime s.lfs p = none) :
    process_entry cfg (pr, cur, s) (Entry.file p r) =
      (pr, cur, fail (Err.missingLocalFile p) s) := by
  unfold process_entry
  simp [h0, hml, hrev, hmt]

theorem process_entry_file_conflict (cfg : Cfg) (pr : Option Bool) (cur : List String) (s : S)
    (p : String) (r : Nat) (m : Meta) (t : Nat) (h0 : s.err = none)
    (hml : alook p s.st.local_files = some m) (hrev : r ≠ m.rev)
    (hmt : getmtime s.lfs p = some t) (hgt : t > m.modified)
    (herr2 : (handle_conflict cfg p pr s).2.err = none) :
    process_entry cfg (pr, cur, s) (Entry.file p r) =
      ((handle_conflict cfg p pr s).1, cur ++ [p], (handle_conflict cfg p pr s).2) := by
  unfold process_entry
  simp [h0, hml, hrev, hmt, hgt, herr2]

theorem process_entry_file_stale (cfg : Cfg) (pr : Option Bool) (cur : List String) (s : S)
    (p : String) (r : Nat) (m : Meta) (t : Nat) (h0 : s.err = none)
    (hml : alook p s.st.local_files = some m) (hrev : r ≠ m.rev)
    (hmt : getmtime s.lfs p = some t) (hle : ¬ t > m.modified)
    (herr2 : (download_remote cfg p s).err = none) :
    process_entry cfg (pr, cur, s) (Entry.file p r) = (pr, cur ++ [p], download_remote cfg p s) := by
  unfold process_entry
  simp [h0, hml, hrev, hmt, hle, herr2]

theorem process_entry_folder_new (cfg : Cfg) (pr : Option Bool) (cur : List String) (s : S)
    (d : String) (h0 : s.err = none) (hex : existsLocal s.lfs d = false) :
    process_entry cfg (pr, cur, s) (Entry.folder d) =
      (pr, cur, make_local_dir cfg d (emit (Action.mkdir d) s)) := by
  unfold process_entry
  simp [h0, hex]

theorem process_entry_folder_old (cfg : Cfg) (pr : Option Bool) (cur : List String) (s : S)
    (d : String) (h0 : s.err = none) (hex : existsLocal s.lfs d = true) :
    process_entry cfg (pr, cur, s) (Entry.folder d) = (pr, cur, s) := by
  unfold process_entry
  simp [h0, hex]

theorem make_local_dir_absent_full (cfg : Cfg) (p : String) (s : S) (h0 : s.err = none)
    (hex : existsLocal s.lfs p = false) :
    make_local_dir cfg p s =
      { s with lfs := { s.lfs with dirs := s.lfs.dirs ++ makedirsList p } } := by
  unfold make_local_dir
  simp [h0, hex]

end Synchronator

namespace Synchronator

theorem file_mem_fileKeys (p : String) (r : Nat) : ∀ (es : List Entry),
    Entry.file p r ∈ es → p ∈ fileKeys es := by
  intro es
  induction es with
  | nil => intro h; cases h
  | cons e t ih =>
    intro h
    rcases List.mem_cons.mp h with heq | hmem
    · rw [← heq]
      simp [fileKeys]
    · cases e with
      | file q r' =>
        simp only [fileKeys, List.mem_cons]
        exact Or.inr (ih hmem)
      | folder q =>
        simp only [fileKeys]
        exact ih hmem

theorem download_entryStep (cfg : Cfg) (p : String) (s : S) (r : Nat)
    (h0 : s.err = none) (hd : cfg.downloadOk p = true) (hr : alook p s.rfs.files = some r) :
    EntryStep p s (download_remote cfg p s) := by
  obtain ⟨c1, c2, c3, c4, c5, c6, c7⟩ := download_ok_shape cfg p s r h0 hd hr
  refine ⟨c5, ⟨⟨r, s.clock⟩, ?_, ?_⟩, ?_, ?_, ?_, ?_⟩
  · rw [c1]
    exact alook_aset_self p _ _
  · rw [c4]
    exact hr
  · intro q hq
    rw [c1]
    exact alook_aset_ne p q _ _ hq
  · intro q _
    rw [c4]
  · intro q
    rw [c4]
  · intro h
    rw [c4]
    exact h

theorem upload_entryStep (cfg : Cfg) (p : String) (s : S) (t : Nat)
    (h0 : s.err = none) (hu : cfg.uploadOk p = true) (ht : alook p s.lfs.files = some t)
    (hrp : (alook p s.rfs.files).isSome) :
    EntryStep p s (upload cfg p s) := by
  obtain ⟨c1, c2, c3, c4, c5, c6, c7⟩ := upload_ok_shape cfg p s t h0 hu ht
  refine ⟨c5, ⟨⟨s.clock, t⟩, ?_, ?_⟩, ?_, ?_, ?_, ?_⟩
  · rw [c1]
    exact alook_aset_self p _ _
  · rw [c3]
    exact alook_aset_self p _ _
  · intro q hq
    rw [c1]
    exact alook_aset_ne p q _ _ hq
  · intro q hq
    rw [c3]
    exact alook_aset_ne p q _ _ hq
  · intro q
    rw [c3]
    by_cases hq : q = p
    · subst hq
      rw [alook_aset_self]
      simp [hrp]
    · rw [alook_aset_ne p q _ _ hq]
  · intro h
    rw [c3]
    exact WfKeys_aset p s.clock s.rfs.files h

theorem apply_choice_entryStep (cfg : Cfg) (p : String) (b : Bool) (s : S) (r t : Nat)
    (h0 : s.err = none) (hu : cfg.uploadOk p = true) (hd : cfg.downloadOk p = true)
    (hr : alook p s.rfs.files = some r) (ht : alook p s.lfs.files = some t) :
    EntryStep p s (apply_conflict_choice cfg p b s) := by
  unfold apply_conflict_choice
  cases b
  · simp only [Bool.false_eq_true, if_false]
    exact upload_entryStep cfg p s t h0 hu ht (by rw [hr]; rfl)
  · simp only [if_true]
    exact download_entryStep cfg p s r h0 hd hr

theorem handle_conflict_entryStep (cfg : Cfg) (p : String) (pr : Option Bool) (s : S)
    (r t : Nat) (h0 : s.err = none) (hu : cfg.uploadOk p = true)
    (hd : cfg.downloadOk p = true) (hr : alook p s.rfs.files = some r)
    (ht : alook p s.lfs.files = some t) :
    EntryStep p s (handle_conflict cfg p pr s).2 := by
  cases pr with
  | some b =>
    rw [(handle_conflict_memo cfg p b s).2]
    rw [show s.err.isSome = false by rw [h0]; rfl]
    simp only [Bool.false_eq_true, if_false]
    exact apply_choice_entryStep cfg p b s r t h0 hu hd hr ht
  | none =>
    rw [(handle_conflict_fresh cfg p s h0).2]
    exact apply_choice_entryStep cfg p _ (emit (Action.promptConflict p) s) r t h0 hu hd hr ht

theorem RGoal_file_step (cfg : Cfg) (t : List Entry) (p : String)
    (pr' : Option Bool) (cur : List String) (s s' : S)
    (hES : EntryStep p s s')
    (hnd : (fileKeys t).Nodup) (hp : p ∉ fileKeys t)
    (hes : ∀ q r', Entry.file q r' ∈ t → alook q s.rfs.files = some r')
    (hRI : RInv cur s) (hWf : WfKeys s.rfs.files)
    (IH : RGoal cfg t)
    (hout : (t.foldl (process_entry cfg) (pr', cur ++ [p], s')).2.2.err = none) :
    (t.foldl (process_entry cfg) (pr', cur ++ [p], s')).2.1 = cur ++ (p :: fileKeys t) ∧
    RInv (t.foldl (process_entry cfg) (pr', cur ++ [p], s')).2.1
      (t.foldl (process_entry cfg) (pr', cur ++ [p], s')).2.2 ∧
    WfKeys (t.foldl (process_entry cfg) (pr', cur ++ [p], s')).2.2.rfs.files ∧
    (∀ q, (alook q (t.foldl (process_entry cfg) (pr', cur ++ [p], s')).2.2.rfs.files).isSome
        = (alook q s.rfs.files).isSome) ∧
    (∀ q, q ∉ p :: fileKeys t →
      alook q (t.foldl (process_entry cfg) (pr', cur ++ [p], s')).2.2.rfs.files
        = alook q s.rfs.files) := by
  obtain ⟨e1, ⟨m', em1, em2⟩, e3, e4, e5, e6⟩ := hES
  have hes' : ∀ q r', Entry.file q r' ∈ t → alook q s'.rfs.files = some r' := by
    intro q r' hq
    have hqk : q ∈ fileKeys t := file_mem_fileKeys q r' t hq
    have hqp : q ≠ p := fun h => hp (h ▸ hqk)
    rw [e4 q hqp]
    exact hes q r' hq
  have hRI' : RInv (cur ++ [p]) s' := by
    intro q hq
    rcases List.mem_append.mp hq with hq | hq
    · by_cases hqp : q = p
      · subst hqp
        exact ⟨m', em1, em2⟩
      · obtain ⟨mq, hq1, hq2⟩ := hRI q hq
        exact ⟨mq, by rw [e3 q hqp]; exact hq1, by rw [e4 q hqp]; exact hq2⟩
    · have hqp : q = p := by simpa using hq
      subst hqp
      exact ⟨m', em1, em2⟩
  obtain ⟨o1, o2, o3, o4, o5⟩ := IH pr' (cur ++ [p]) s' e1 hnd hes' hRI' (e6 hWf) hout
  refine ⟨?_, o2, o3, ?_, ?_⟩
  · rw [o1, List.append_assoc]
    rfl
  · intro q
    rw [o4 q, e5 q]
  · intro q hq
    have hq1 : q ∉ fileKeys t := fun h => hq (List.mem_cons_of_mem p h)
    have hqp : q ≠ p := fun h => hq (h ▸ List.mem_cons_self p (fileKeys t))
    rw [o5 q hq1, e4 q hqp]

theorem entries_fold_R (cfg : Cfg)
    (hu : ∀ q, cfg.uploadOk q = true) (hd : ∀ q, cfg.downloadOk q = true) :
    ∀ (es : List Entry), RGoal cfg es := by
  intro es
  induction es with
  | nil =>
    intro pr cur s h0 _ _ hRI hWf _
    exact ⟨by simp [fileKeys], by simpa [fileKeys, List.append_nil] using hRI, hWf,
      fun q => rfl, fun q _ => rfl⟩
  | cons e t ih =>
    intro pr cur s h0 hnd hes hRI hWf hout
    cases e with
    | file p r =>
      have hrp : alook p s.rfs.files = some r := hes p r (List.mem_cons_self _ _)
      have hnd' : (fileKeys t).Nodup := by
        simp only [fileKeys] at hnd
        exact (List.nodup_cons.mp hnd).2
      have hp : p ∉ fileKeys t := by
        simp only [fileKeys] at hnd
        exact (List.nodup_cons.mp hnd).1
      have hest : ∀ q r', Entry.file q r' ∈ t → alook q s.rfs.files = some r' :=
        fun q r' hq => hes q r' (List.mem_cons_of_mem _ hq)
      cases hml : alook p s.st.local_files with
      | none =>
        have hES := download_entryStep cfg p s r h0 (hd p) hrp
        have hstep := process_entry_file_new cfg pr cur s p r h0 hml hES.1
        rw [List.foldl_cons, hstep] at hout ⊢
        simp only [fileKeys]
        exact RGoal_file_step cfg t p pr cur s _ hES hnd' hp hest hRI hWf ih hout
      | some m =>
        by_cases hrev : r = m.rev
        · have hstep := process_entry_file_same cfg pr cur s p r m h0 hml hrev
          have hES : EntryStep p s s :=
            ⟨h0, ⟨m, hml, by rw [hrp, hrev]⟩, fun q _ => rfl, fun q _ => rfl,
              fun q => rfl, fun h => h⟩
          rw [List.foldl_cons, hstep] at hout ⊢
          simp only [fileKeys]
          exact RGoal_file_step cfg t p pr cur s s hES hnd' hp hest hRI hWf ih hout
        · cases hmt : getmtime s.lfs p with
          | none =>
            have hstep := process_entry_file_nofile cfg pr cur s p r m h0 hml hrev hmt
            rw [List.foldl_cons, hstep,
              entries_fold_frozen cfg t _ (by simp [fail])] at hout
            simp [fail] at hout
          | some tt =>
            by_cases hgt : tt > m.modified
            · have hES := handle_conflict_entryStep cfg p pr s r tt h0 (hu p) (hd p) hrp hmt
              have hstep := process_entry_file_conflict cfg pr cur s p r m tt h0 hml hrev
                hmt hgt hES.1
              rw [List.foldl_cons, hstep] at hout ⊢
              simp only [fileKeys]
              exact RGoal_file_step cfg t p _ cur s _ hES hnd' hp hest hRI hWf ih hout
            · have hES := download_entryStep cfg p s r h0 (hd p) hrp
              have hstep := process_entry_file_stale cfg pr cur s p r m tt h0 hml hrev
                hmt hgt hES.1
              rw [List.foldl_cons, hstep] at hout ⊢
              simp only [fileKeys]
              exact RGoal_file_step cfg t p pr cur s _ hES hnd' hp hest hRI hWf ih hout
    | folder d =>
      have hnd' : (fileKeys t).Nodup := by simpa only [fileKeys] using hnd
      have hest : ∀ q r', Entry.file q r' ∈ t → alook q s.rfs.files = some r' :=
        fun q r' hq => hes q r' (List.mem_cons_of_mem _ hq)
      by_cases hex : existsLocal s.lfs d = true
      · have hstep := process_entry_folder_old cfg pr cur s d h0 hex
        rw [List.foldl_cons, hstep] at hout ⊢
        simp only [fileKeys]
        exact ih pr cur s h0 hnd' hest hRI hWf hout
      · have hex' : existsLocal s.lfs d = false := by
          cases hx : existsLocal s.lfs d
          · rfl
          · exact absurd hx hex
        have hstep := process_entry_folder_new cfg pr cur s d h0 hex'
        have hfull := make_local_dir_absent_full cfg d (emit (Action.mkdir d) s) h0 hex'
        rw [List.foldl_cons, hstep] at hout ⊢
        simp only [fileKeys]
        have hs1 : (make_local_dir cfg d (emit (Action.mkdir d) s)).err = none := by
          rw [hfull]
          exact h0
        have hs2 : (make_local_dir cfg d (emit (Action.mkdir d) s)).rfs = s.rfs := by
          rw [hfull]
          rfl
        have hs3 : (make_local_dir cfg d (emit (Action.mkdir d) s)).st = s.st := by
          rw [hfull]
          rfl
        have hest' : ∀ q r', Entry.file q r' ∈ t →
            alook q (make_local_dir cfg d (emit (Action.mkdir d) s)).rfs.files = some r' := by
          intro q r' hq
          rw [hs2]
          exact hest q r' hq
        have hRI' : RInv cur (make_local_dir cfg d (emit (Action.mkdir d) s)) := by
          intro q hq
          obtain ⟨mq, h1, h2⟩ := hRI q hq
          exact ⟨mq, by rw [hs3]; exact h1, by rw [hs2]; exact h2⟩
        have hWf' : WfKeys (make_local_dir cfg d (emit (Action.mkdir d) s)).rfs.files := by
          rw [hs2]
          exact hWf
        obtain ⟨o1, o2, o3, o4, o5⟩ := ih pr cur _ hs1 hnd' hest' hRI' hWf' hout
        exact ⟨o1, o2, o3, fun q => by rw [o4 q, hs2], fun q hq => by rw [o5 q hq, hs2]⟩

end Synchronator

namespace Synchronator

theorem process_remote_entries_eq (cfg : Cfg) (page : List Entry) (cur : List String) (s : S) :
    process_remote_entries cfg page cur s =
      ((page.foldl (process_entry cfg) (none, cur, s)).2.1,
       (page.foldl (process_entry cfg) (none, cur, s)).2.2) := rfl

theorem pages_fold_R (cfg : Cfg)
    (hu : ∀ q, cfg.uploadOk q = true) (hd : ∀ q, cfg.downloadOk q = true) :
    ∀ (pages : List (List Entry)) (cur : List String) (s : S),
    s.err = none →
    (fileKeys pages.join).Nodup →
    (∀ p r, Entry.file p r ∈ pages.join → alook p s.rfs.files = some r) →
    RInv cur s →
    WfKeys s.rfs.files →
    (pages.foldl (fun (acc : List String × S) page =>
        process_remote_entries cfg page acc.1 acc.2) (cur, s)).2.err = none →
    (pages.foldl (fun (acc : List String × S) page =>
        process_remote_entries cfg page acc.1 acc.2) (cur, s)).1 = cur ++ fileKeys pages.join ∧
    RInv (pages.foldl (fun (acc : List String × S) page =>
        process_remote_entries cfg page acc.1 acc.2) (cur, s)).1
      (pages.foldl (fun (acc : List String × S) page =>
        process_remote_entries cfg page acc.1 acc.2) (cur, s)).2 ∧
    WfKeys (pages.foldl (fun (acc : List String × S) page =>
        process_remote_entries cfg page acc.1 acc.2) (cur, s)).2.rfs.files ∧
    (∀ q, (alook q (pages.foldl (fun (acc : List String × S) page =>
        process_remote_entries cfg page acc.1 acc.2) (cur, s)).2.rfs.files).isSome
      = (alook q s.rfs.files).isSome) := by
  intro pages
  induction pages with
  | nil =>
    intro cur s h0 _ _ hRI hWf _
    exact ⟨by simp [fileKeys], hRI, hWf, fun q => rfl⟩
  | cons pg t ih =>
    intro cur s h0 hnd hes hRI hWf hout
    simp only [List.join_cons, fileKeys_append] at hnd hes ⊢
    have hnd1 : (fileKeys pg).Nodup := (List.nodup_append.mp hnd).1
    have hnd2 : (fileKeys t.join).Nodup := (List.nodup_append.mp hnd).2.1
    have hdisj : (fileKeys pg).Disjoint (fileKeys t.join) := (List.nodup_append.mp hnd).2.2
    have hes1 : ∀ p r, Entry.file p r ∈ pg → alook p s.rfs.files = some r :=
      fun p r hp => hes p r (List.mem_append_left _ hp)
    have hes2 : ∀ p r, Entry.file p r ∈ t.join → alook p s.rfs.files = some r :=
      fun p r hp => hes p r (List.mem_append_right _ hp)
    rw [List.foldl_cons, process_remote_entries_eq] at hout ⊢
    by_cases herr1 : (pg.foldl (process_entry cfg) (none, cur, s)).2.2.err = none
    · obtain ⟨o1, o2, o3, o4, o5⟩ :=
        entries_fold_R cfg hu hd pg none cur s h0 hnd1 hes1 hRI hWf herr1
      have hes2' : ∀ p r, Entry.file p r ∈ t.join →
          alook p (pg.foldl (process_entry cfg) (none, cur, s)).2.2.rfs.files = some r := by
        intro p r hp
        have hpk : p ∈ fileKeys t.join := file_mem_fileKeys p r t.join hp
        have hpn : p ∉ fileKeys pg := fun hin => hdisj hin hpk
        rw [o5 p hpn]
        exact hes2 p r hp
      obtain ⟨q1, q2, q3, q4⟩ := ih (pg.foldl (process_entry cfg) (none, cur, s)).2.1
        (pg.foldl (process_entry cfg) (none, cur, s)).2.2 herr1 hnd2 hes2' o2 o3 hout
      refine ⟨?_, q2, q3, fun q => (q4 q).trans (o4 q)⟩
      rw [q1, o1, List.append_assoc]
    · have hsome : (pg.foldl (process_entry cfg) (none, cur, s)).2.2.err.isSome :=
        Option.ne_none_iff_isSome.mp herr1
      rw [pages_fold_frozen cfg t _ hsome] at hout
      exact absurd hout herr1

theorem delete_local_remote_of_ok (cfg : Cfg) (k : String) (s : S)
    (h0 : s.err = none) (ml : Meta) (hml : alook k s.st.local_files = some ml)
    (hout : (delete_local cfg k s).err = none) :
    (alook k s.st.remote_files).isSome := by
  cases hmr : alook k s.st.remote_files with
  | some m => rfl
  | none =>
    exfalso
    unfold delete_local at hout
    simp only [h0, Option.isSome_none, Bool.false_eq_true, if_false] at hout
    by_cases hrm' : cfg.removeOk k = true
    all_goals simp only [hrm', Bool.false_eq_true, if_true, if_false] at hout
    all_goals dsimp only [emit] at hout
    all_goals rw [hml, hmr] at hout
    all_goals simp [fail] at hout

theorem delta_fold_D (cfg : Cfg) (cur : List String)
    (hrm : ∀ q, cfg.removeOk q = true) :
    ∀ (ks : List String) (s : S), s.err = none →
    (ks.foldl (fun s p =>
      if s.err.isSome then s else
      if !(cur.contains p) && (alook p s.st.local_files).isSome then delete_local cfg p s
      else s) s).err = none →
    (ks.foldl (fun s p =>
      if s.err.isSome then s else
      if !(cur.contains p) && (alook p s.st.local_files).isSome then delete_local cfg p s
      else s) s).rfs = s.rfs ∧
    (∀ p, p ∈ cur →
      alook p (ks.foldl (fun s p =>
        if s.err.isSome then s else
        if !(cur.contains p) && (alook p s.st.local_files).isSome then delete_local cfg p s
        else s) s).st.local_files = alook p s.st.local_files ∧
      alook p (ks.foldl (fun s p =>
        if s.err.isSome then s else
        if !(cur.contains p) && (alook p s.st.local_files).isSome then delete_local cfg p s
        else s) s).st.remote_files = alook p s.st.remote_files) ∧
    (∀ p m, alook p (ks.foldl (fun s p =>
        if s.err.isSome then s else
        if !(cur.contains p) && (alook p s.st.local_files).isSome then delete_local cfg p s
        else s) s).st.local_files = some m → alook p s.st.local_files = some m) ∧
    (∀ p m, alook p (ks.foldl (fun s p =>
        if s.err.isSome then s else
        if !(cur.contains p) && (alook p s.st.local_files).isSome then delete_local cfg p s
        else s) s).st.remote_files = some m → alook p s.st.remote_files = some m) ∧
    (∀ p, p ∈ ks →
      (alook p (ks.foldl (fun s p =>
        if s.err.isSome then s else
        if !(cur.contains p) && (alook p s.st.local_files).isSome then delete_local cfg p s
        else s) s).st.local_files).isSome → cur.contains p = true) := by
  intro ks
  induction ks with
  | nil =>
    intro s h0 _
    exact ⟨rfl, fun p _ => ⟨rfl, rfl⟩, fun p m h => h, fun p m h => h, fun p hp => absurd hp (by simp)⟩
  | cons k t ih =>
    intro s h0 hout
    rw [List.foldl_cons] at hout ⊢
    simp only [show s.err.isSome = false by rw [h0]; rfl, Bool.false_eq_true, if_false]
      at hout ⊢
    by_cases hc : (!(cur.contains k) && (alook k s.st.local_files).isSome) = true
    · simp only [hc, if_true] at hout ⊢
      rw [Bool.and_eq_true] at hc
      have hkc : cur.contains k = false := by
        cases hx : cur.contains k
        · rfl
        · rw [hx] at hc
          simp at hc
      have hls : (alook k s.st.local_files).isSome := hc.2
      obtain ⟨ml, hml⟩ := Option.isSome_iff_exists.mp hls
      by_cases herr1 : (delete_local cfg k s).err = none
      · have hrs := delete_local_remote_of_ok cfg k s h0 ml hml herr1
        obtain ⟨f1, f2, f3, f4, f5, f6⟩ := delete_local_shape cfg k s h0 (hrm k) hls hrs
        obtain ⟨q1, q2, q3, q4, q5⟩ := ih (delete_local cfg k s) herr1 hout
        have hkp : ∀ p, p ∈ cur → p ≠ k := by
          intro p hp hpk
          subst hpk
          simp [hp] at hkc
        refine ⟨?_, ?_, ?_, ?_, ?_⟩
        · rw [q1, f3]
        · intro p hp
          obtain ⟨w1, w2⟩ := q2 p hp
          refine ⟨?_, ?_⟩
          · rw [w1, f1, alook_adel_ne k p _ (hkp p hp)]
          · rw [w2, f2, alook_adel_ne k p _ (hkp p hp)]
        · intro p m hp
          have h2 := q3 p m hp
          rw [f1] at h2
          by_cases hpk : p = k
          · subst hpk
            rw [alook_adel_self] at h2
            cases h2
          · rw [alook_adel_ne k p _ hpk] at h2
            exact h2
        · intro p m hp
          have h2 := q4 p m hp
          rw [f2] at h2
          by_cases hpk : p = k
          · subst hpk
            rw [alook_adel_self] at h2
            cases h2
          · rw [alook_adel_ne k p _ hpk] at h2
            exact h2
        · intro p hp hsome
          rcases List.mem_cons.mp hp with hpk | hpt
          · subst hpk
            exfalso
            obtain ⟨m, hm⟩ := Option.isSome_iff_exists.mp hsome
            have h2 := q3 p m hm
            rw [f1, alook_adel_self] at h2
            cases h2
          · exact q5 p hpt hsome
      · exfalso
        have hsome1 : (delete_local cfg k s).err.isSome := Option.ne_none_iff_isSome.mp herr1
        rw [delta_fold_frozen cfg cur t _ hsome1] at hout
        exact herr1 hout
    · simp only [hc, Bool.false_eq_true, if_false] at hout ⊢
      obtain ⟨q1, q2, q3, q4, q5⟩ := ih s h0 hout
      refine ⟨q1, q2, q3, q4, ?_⟩
      intro p hp hsome
      rcases List.mem_cons.mp hp with hpk | hpt
      · subst hpk
        cases hck : cur.contains p
        · exfalso
          have hlsome : (alook p s.st.local_files).isSome := by
            obtain ⟨m, hm⟩ := Option.isSome_iff_exists.mp hsome
            rw [q3 p m hm]
            rfl
          rw [hck] at hc
          simp [hlsome] at hc
        · rfl
      · exact q5 p hpt hsome

theorem delta_delete_pass_eq (cfg : Cfg) (cur : List String) (s : S) :
    delta_delete_pass cfg cur s =
      (s.st.remote_files.map Prod.fst).foldl (fun s p =>
        if s.err.isSome then s else
        if !(cur.contains p) && (alook p s.st.local_files).isSome then delete_local cfg p s
        else s) s := rfl

end Synchronator

namespace Synchronator

theorem check_state_err_eq (cfg : Cfg) (p : String) (s : S) (h0 : s.err = none)
    (hr : (alook p s.st.remote_files).isNone = false)
    (hcu : check_local_update s p = none) :
    check_state cfg p s = fail Err.keyError s := by
  unfold check_state
  simp [h0, hr, hcu]

theorem upload_post (cfg : Cfg) (q : String) (s : S) (t : Nat)
    (h0 : s.err = none) (huq : cfg.uploadOk q = true) (ht : alook q s.lfs.files = some t)
    (hU : UInv s) (hW3 : W3Inv s) (hWf : WfKeys s.rfs.files) :
    (upload cfg q s).err = none ∧
    (upload cfg q s).lfs = s.lfs ∧
    UInv (upload cfg q s) ∧ W3Inv (upload cfg q s) ∧ WfKeys (upload cfg q s).rfs.files ∧
    PostCS q (upload cfg q s) ∧
    (∀ p, p ≠ q → alook p (upload cfg q s).st.local_files = alook p s.st.local_files ∧
      alook p (upload cfg q s).st.remote_files = alook p s.st.remote_files ∧
      alook p (upload cfg q s).rfs.files = alook p s.rfs.files) := by
  obtain ⟨c1, c2, c3, c4, c5, c6, c7⟩ := upload_ok_shape cfg q s t h0 huq ht
  refine ⟨c5, c4, ?_, ?_, ?_, ?_, ?_⟩
  · intro p m hl hr
    by_cases hpq : p = q
    · subst hpq
      rw [c1, alook_aset_self] at hl
      rw [c3, alook_aset_self]
      cases hl
      rfl
    · rw [c1, alook_aset_ne q p _ _ hpq] at hl
      rw [c2, alook_aset_ne q p _ _ hpq] at hr
      rw [c3, alook_aset_ne q p _ _ hpq]
      exact hU p m hl hr
  · intro p r hr
    by_cases hpq : p = q
    · subst hpq
      rw [c3, alook_aset_self] at hr
      rw [c1, alook_aset_self]
      cases hr
      exact ⟨⟨s.clock, t⟩, rfl, rfl⟩
    · rw [c3, alook_aset_ne q p _ _ hpq] at hr
      obtain ⟨m, hm1, hm2⟩ := hW3 p r hr
      rw [c1, alook_aset_ne q p _ _ hpq]
      exact ⟨m, hm1, hm2⟩
  · rw [c3]
    exact WfKeys_aset q s.clock s.rfs.files hWf
  · refine ⟨⟨s.clock, t⟩, t, ?_, ?_, ?_, ?_, le_refl t⟩
    · rw [c1]
      exact alook_aset_self q _ _
    · rw [c2, alook_aset_self]
      rfl
    · rw [c3]
      exact alook_aset_self q _ _
    · rw [show (upload cfg q s).lfs = s.lfs from c4]
      exact ht
  · intro p hpq
    exact ⟨by rw [c1]; exact alook_aset_ne q p _ _ hpq,
      by rw [c2]; exact alook_aset_ne q p _ _ hpq,
      by rw [c3]; exact alook_aset_ne q p _ _ hpq⟩

theorem csfold_L1 (cfg : Cfg) (hu : ∀ q, cfg.uploadOk q = true) :
    ∀ (fl : List String) (s : S), s.err = none →
    (∀ p, p ∈ fl → (alook p s.lfs.files).isSome) →
    UInv s → W3Inv s → WfKeys s.rfs.files →
    (fl.foldl (fun s p => check_state cfg p s) s).err = none →
    (fl.foldl (fun s p => check_state cfg p s) s).lfs = s.lfs ∧
    UInv (fl.foldl (fun s p => check_state cfg p s) s) ∧
    W3Inv (fl.foldl (fun s p => check_state cfg p s) s) ∧
    WfKeys (fl.foldl (fun s p => check_state cfg p s) s).rfs.files ∧
    (∀ p, p ∉ fl →
      alook p (fl.foldl (fun s p => check_state cfg p s) s).st.local_files
        = alook p s.st.local_files ∧
      alook p (fl.foldl (fun s p => check_state cfg p s) s).st.remote_files
        = alook p s.st.remote_files ∧
      alook p (fl.foldl (fun s p => check_state cfg p s) s).rfs.files
        = alook p s.rfs.files) ∧
    (∀ p, p ∈ fl → PostCS p (fl.foldl (fun s p => check_state cfg p s) s)) := by
  intro fl
  induction fl with
  | nil =>
    intro s h0 _ hU hW3 hWf _
    exact ⟨rfl, hU, hW3, hWf, fun p _ => ⟨rfl, rfl, rfl⟩, fun p hp => absurd hp (by simp)⟩
  | cons q fl' ih =>
    intro s h0 hfl hU hW3 hWf hout
    rw [List.foldl_cons] at hout ⊢
    obtain ⟨t, ht⟩ := Option.isSome_iff_exists.mp (hfl q (List.mem_cons_self q fl'))
    have hupload : ∀ (hcs : check_state cfg q s = upload cfg q s),
        (List.foldl (fun s p => check_state cfg p s) (check_state cfg q s) fl').lfs = s.lfs ∧
        UInv (List.foldl (fun s p => check_state cfg p s) (check_state cfg q s) fl') ∧
        W3Inv (List.foldl (fun s p => check_state cfg p s) (check_state cfg q s) fl') ∧
        WfKeys (List.foldl (fun s p => check_state cfg p s) (check_state cfg q s) fl').rfs.files ∧
        (∀ p, p ∉ q :: fl' →
          alook p (List.foldl (fun s p => check_state cfg p s)
            (check_state cfg q s) fl').st.local_files = alook p s.st.local_files ∧
          alook p (List.foldl (fun s p => check_state cfg p s)
            (check_state cfg q s) fl').st.remote_files = alook p s.st.remote_files ∧
          alook p (List.foldl (fun s p => check_state cfg p s)
            (check_state cfg q s) fl').rfs.files = alook p s.rfs.files) ∧
        (∀ p, p ∈ q :: fl' →
          PostCS p (List.foldl (fun s p => check_state cfg p s) (check_state cfg q s) fl')) := by
      intro hcs
      rw [hcs] at hout ⊢
      obtain ⟨u1, u2, u3, u4, u5, u6, u7⟩ := upload_post cfg q s t h0 (hu q) ht hU hW3 hWf
      have hfl' : ∀ p, p ∈ fl' → (alook p (upload cfg q s).lfs.files).isSome := by
        intro p hp
        rw [u2]
        exact hfl p (List.mem_cons_of_mem q hp)
      obtain ⟨o1, o2, o3, o4, o5, o6⟩ := ih (upload cfg q s) u1 hfl' u3 u4 u5 hout
      refine ⟨o1.trans u2, o2, o3, o4, ?_, ?_⟩
      · intro p hp
        have hpq : p ≠ q := fun h => hp (h ▸ List.mem_cons_self q fl')
        have hpf : p ∉ fl' := fun h => hp (List.mem_cons_of_mem q h)
        obtain ⟨w1, w2, w3⟩ := o5 p hpf
        obtain ⟨v1, v2, v3⟩ := u7 p hpq
        exact ⟨w1.trans v1, w2.trans v2, w3.trans v3⟩
      · intro p hp
        by_cases hpf : p ∈ fl'
        · exact o6 p hpf
        · have hpq : p = q := by
            rcases List.mem_cons.mp hp with h | h
            · exact h
            · exact absurd h hpf
          subst hpq
          obtain ⟨m, tt, z1, z2, z3, z4, z5⟩ := u6
          obtain ⟨w1, w2, w3⟩ := o5 p hpf
          exact ⟨m, tt, by rw [w1]; exact z1, by rw [w2]; exact z2, by rw [w3]; exact z3,
            by rw [o1]; exact z4, z5⟩
    by_cases hrn : (alook q s.st.remote_files).isNone = true
    · exact hupload (check_state_upload_new cfg q s h0 (Option.isNone_iff_eq_none.mp hrn))
    · have hrs : (alook q s.st.remote_files).isSome := by
        cases hx : alook q s.st.remote_files
        · rw [hx] at hrn
          simp at hrn
        · rfl
      have hrn' : (alook q s.st.remote_files).isNone = false := by
        cases hx : alook q s.st.remote_files
        · rw [hx] at hrs
          simp at hrs
        · rfl
      cases hlq : alook q s.st.local_files with
      | none =>
        have hcu : check_local_update s q = none := by
          unfold check_local_update
          rw [show getmtime s.lfs q = some t from ht, hlq]
        have hcs := check_state_err_eq cfg q s h0 hrn' hcu
        rw [hcs, csfold_frozen cfg fl' _ (by simp [fail])] at hout
        simp [fail] at hout
      | some m =>
        by_cases hgt : t > m.modified
        · exact hupload (check_state_upload_changed cfg q s m t h0 hrs hlq ht hgt)
        · have hle : t ≤ m.modified := Nat.le_of_not_lt hgt
          have hcs := check_state_skip cfg q s m t h0 hrs hlq ht hle
          rw [hcs] at hout ⊢
          obtain ⟨o1, o2, o3, o4, o5, o6⟩ :=
            ih s h0 (fun p hp => hfl p (List.mem_cons_of_mem q hp)) hU hW3 hWf hout
          refine ⟨o1, o2, o3, o4, ?_, ?_⟩
          · intro p hp
            exact o5 p (fun h => hp (List.mem_cons_of_mem q h))
          · intro p hp
            by_cases hpf : p ∈ fl'
            · exact o6 p hpf
            · have hpq : p = q := by
                rcases List.mem_cons.mp hp with h | h
                · exact h
                · exact absurd h hpf
              subst hpq
              have hrfs : alook p s.rfs.files = some m.rev := hU p m hlq hrs
              obtain ⟨w1, w2, w3⟩ := o5 p hpf
              exact ⟨m, t, by rw [w1]; exact hlq, by rw [w2]; exact hrs,
                by rw [w3]; exact hrfs, by rw [o1]; exact ht, hle⟩

end Synchronator

namespace Synchronator

theorem actsGrow_cleanup_cascade (cfg : Cfg) (p : String) (L : List String) (s s4 : S)
    (h : actsGrow s s4) :
    actsGrow s (remote_cascade cfg L (local_dir_cleanup p s4)) :=
  actsGrow_trans h (actsGrow_trans
    ⟨[], by rw [(local_dir_cleanup_fields p s4).2.1, List.append_nil]⟩
    (remote_cascade_grow cfg L (local_dir_cleanup p s4)))

theorem delete_remote_grow (cfg : Cfg) (p : String) (s : S) :
    actsGrow s (delete_remote cfg p s) := by
  unfold delete_remote
  by_cases h0 : s.err.isSome
  · simp only [h0, if_true]
    exact actsGrow_refl s
  · simp only [h0, Bool.false_eq_true, if_false]
    split
    · cases hml : alook p s.st.local_files with
      | none =>
        dsimp only [emit]
        rw [hml]
        exact ⟨[Action.deleteRemote p] ++ [Action.warnRemoteDeleteFailed p],
          by rw [List.append_assoc]⟩
      | some ml =>
        cases hmr : alook p s.st.remote_files with
        | none =>
          dsimp only [emit]
          rw [hml, hmr]
          exact ⟨[Action.deleteRemote p] ++ [Action.warnRemoteDeleteFailed p],
            by rw [List.append_assoc]⟩
        | some mr =>
          dsimp only [emit]
          rw [hml, hmr]
          exact actsGrow_cleanup_cascade cfg p _ s _ ⟨[Action.deleteRemote p], rfl⟩
    · dsimp only [emit]
      exact ⟨[Action.deleteRemote p] ++ [Action.warnRemoteDeleteFailed p],
        by rw [List.append_assoc]⟩

theorem drfold_grow (cfg : Cfg) (fl : List String) :
    ∀ (old : List String) (s : S),
    actsGrow s (old.foldl (fun s p => if !(fl.contains p) then delete_remote cfg p s else s) s) := by
  intro old
  induction old with
  | nil => intro s; exact actsGrow_refl s
  | cons k t ih =>
    intro s
    rw [List.foldl_cons]
    by_cases hk : (!(fl.contains k)) = true
    · rw [if_pos hk]
      exact actsGrow_trans (delete_remote_grow cfg k s) (ih (delete_remote cfg k s))
    · rw [if_neg hk]
      exact ih s

theorem drfold_L2 (cfg : Cfg) (hdel : ∀ q, cfg.deleteOk q = true) (fl : List String) :
    ∀ (old : List String) (s : S), s.err = none →
    UInv s → W3Inv s → WfKeys s.rfs.files →
    (∀ q, Action.warnRemoteDeleteFailed q ∉
      (old.foldl (fun s p => if !(fl.contains p) then delete_remote cfg p s else s) s).acts) →
    (old.foldl (fun s p => if !(fl.contains p) then delete_remote cfg p s else s) s).err = none →
    (old.foldl (fun s p => if !(fl.contains p) then delete_remote cfg p s else s) s).lfs.files
      = s.lfs.files ∧
    UInv (old.foldl (fun s p => if !(fl.contains p) then delete_remote cfg p s else s) s) ∧
    W3Inv (old.foldl (fun s p => if !(fl.contains p) then delete_remote cfg p s else s) s) ∧
    WfKeys (old.foldl (fun s p => if !(fl.contains p) then delete_remote cfg p s else s) s).rfs.files ∧
    (∀ p, fl.contains p = true →
      alook p (old.foldl (fun s p => if !(fl.contains p) then delete_remote cfg p s else s)
        s).st.local_files = alook p s.st.local_files ∧
      alook p (old.foldl (fun s p => if !(fl.contains p) then delete_remote cfg p s else s)
        s).st.remote_files = alook p s.st.remote_files ∧
      alook p (old.foldl (fun s p => if !(fl.contains p) then delete_remote cfg p s else s)
        s).rfs.files = alook p s.rfs.files) ∧
    (∀ p m, alook p (old.foldl (fun s p => if !(fl.contains p) then delete_remote cfg p s else s)
        s).st.local_files = some m → alook p s.st.local_files = some m) ∧
    (∀ p, p ∈ old →
      (alook p (old.foldl (fun s p => if !(fl.contains p) then delete_remote cfg p s else s)
        s).st.local_files).isSome → fl.contains p = true) := by
  intro old
  induction old with
  | nil =>
    intro s h0 hU hW3 hWf _ _
    exact ⟨rfl, hU, hW3, hWf, fun p _ => ⟨rfl, rfl, rfl⟩, fun p m h => h,
      fun p hp => absurd hp (by simp)⟩
  | cons k t ih =>
    intro s h0 hU hW3 hWf hnw hout
    rw [List.foldl_cons] at hnw hout ⊢
    by_cases hk : fl.contains k = true
    · rw [if_neg (by rw [hk]; simp)] at hnw hout ⊢
      obtain ⟨o1, o2, o3, o4, o5, o6, o7⟩ := ih s h0 hU hW3 hWf hnw hout
      refine ⟨o1, o2, o3, o4, o5, o6, ?_⟩
      intro p hp hsome
      rcases List.mem_cons.mp hp with hpk | hpt
      · rw [hpk]
        exact hk
      · exact o7 p hpt hsome
    · have hk' : (!(fl.contains k)) = true := by
        cases hx : fl.contains k
        · rfl
        · exact absurd hx hk
      rw [if_pos hk'] at hnw hout ⊢
      have hnw1 : ∀ q, Action.warnRemoteDeleteFailed q ∉ (delete_remote cfg k s).acts := by
        intro q hq
        exact hnw q (actsGrow_mem (drfold_grow cfg fl t (delete_remote cfg k s)) _ hq)
      by_cases herr1 : (delete_remote cfg k s).err = none
      · rcases delete_remote_cases cfg k s h0 (hdel k) with
          ⟨w1, w2, w3, g1, g2, g3, g4⟩ | hwarn
        · have hU1 : UInv (delete_remote cfg k s) := by
            intro p m hl hr
            rw [g1] at hl
            rw [g2] at hr
            rw [g3]
            by_cases hpk : p = k
            · subst hpk
              rw [alook_adel_self] at hl
              cases hl
            · rw [alook_adel_ne k p _ hpk] at hl hr
              rw [alook_adel_ne k p _ hpk]
              exact hU p m hl hr
          have hW31 : W3Inv (delete_remote cfg k s) := by
            intro p r hr
            rw [g3] at hr
            rw [g1]
            by_cases hpk : p = k
            · subst hpk
              rw [alook_adel_self] at hr
              cases hr
            · rw [alook_adel_ne k p _ hpk] at hr
              obtain ⟨m, hm1, hm2⟩ := hW3 p r hr
              rw [alook_adel_ne k p _ hpk]
              exact ⟨m, hm1, hm2⟩
          have hWf1 : WfKeys (delete_remote cfg k s).rfs.files := by
            rw [g3]
            exact WfKeys_adel k s.rfs.files hWf
          obtain ⟨o1, o2, o3, o4, o5, o6, o7⟩ :=
            ih (delete_remote cfg k s) herr1 hU1 hW31 hWf1 hnw hout
          have hkp : ∀ p, fl.contains p = true → p ≠ k := by
            intro p hp hpk
            subst hpk
            exact hk hp
          refine ⟨o1.trans g4, o2, o3, o4, ?_, ?_, ?_⟩
          · intro p hp
            obtain ⟨v1, v2, v3⟩ := o5 p hp
            refine ⟨?_, ?_, ?_⟩
            · rw [v1, g1, alook_adel_ne k p _ (hkp p hp)]
            · rw [v2, g2, alook_adel_ne k p _ (hkp p hp)]
            · rw [v3, g3, alook_adel_ne k p _ (hkp p hp)]
          · intro p m hp
            have h2 := o6 p m hp
            rw [g1] at h2
            by_cases hpk : p = k
            · subst hpk
              rw [alook_adel_self] at h2
              cases h2
            · rw [alook_adel_ne k p _ hpk] at h2
              exact h2
          · intro p hp hsome
            rcases List.mem_cons.mp hp with hpk | hpt
            · subst hpk
              exfalso
              obtain ⟨m, hm⟩ := Option.isSome_iff_exists.mp hsome
              have h2 := o6 p m hm
              rw [g1, alook_adel_self] at h2
              cases h2
            · exact o7 p hpt hsome
        · exact absurd (actsGrow_mem (drfold_grow cfg fl t (delete_remote cfg k s)) _ hwarn)
            (fun h => hnw k h)
      · exfalso
        have hsome1 : (delete_remote cfg k s).err.isSome := Option.ne_none_iff_isSome.mp herr1
        rw [drfold_frozen cfg fl t _ hsome1] at hout
        exact herr1 hout

end Synchronator

namespace Synchronator

theorem execute_delta_eq_err (cfg : Cfg) (pages : List (List Entry)) (truncated : Bool)
    (s : S) (h0 : s.err = none)
    (herr : (pages.foldl (fun (acc : List String × S) page =>
      process_remote_entries cfg page acc.1 acc.2) ([], s)).2.err.isSome) :
    execute_delta cfg pages truncated s =
      (pages.foldl (fun (acc : List String × S) page =>
        process_remote_entries cfg page acc.1 acc.2) ([], s)).2 := by
  unfold execute_delta
  simp [h0, herr]

theorem execute_delta_eq_ok (cfg : Cfg) (pages : List (List Entry)) (s : S)
    (h0 : s.err = none)
    (herr : (pages.foldl (fun (acc : List String × S) page =>
      process_remote_entries cfg page acc.1 acc.2) ([], s)).2.err = none) :
    execute_delta cfg pages false s =
      delta_delete_pass cfg
        (pages.foldl (fun (acc : List String × S) page =>
          process_remote_entries cfg page acc.1 acc.2) ([], s)).1
        (pages.foldl (fun (acc : List String × S) page =>
          process_remote_entries cfg page acc.1 acc.2) ([], s)).2 := by
  unfold execute_delta
  simp [h0, herr]

theorem execute_delta_R (cfg : Cfg)
    (hu : ∀ q, cfg.uploadOk q = true) (hd : ∀ q, cfg.downloadOk q = true)
    (hrm : ∀ q, cfg.removeOk q = true)
    (pages : List (List Entry)) (s : S)
    (h0 : s.err = none)
    (hnd : (fileKeys pages.join).Nodup)
    (hes : ∀ p r, Entry.file p r ∈ pages.join → alook p s.rfs.files = some r)
    (hWf : WfKeys s.rfs.files)
    (hout : (execute_delta cfg pages false s).err = none) :
    RInv (fileKeys pages.join) (execute_delta cfg pages false s) ∧
    WfKeys (execute_delta cfg pages false s).rfs.files ∧
    (∀ q, (alook q (execute_delta cfg pages false s).rfs.files).isSome
        = (alook q s.rfs.files).isSome) ∧
    (∀ p m, alook p (execute_delta cfg pages false s).st.local_files = some m →
      (fileKeys pages.join).contains p = true ∨
      alook p (execute_delta cfg pages false s).st.remote_files = none) := by
  have herr : (pages.foldl (fun (acc : List String × S) page =>
      process_remote_entries cfg page acc.1 acc.2) ([], s)).2.err = none := by
    by_contra hne
    rw [execute_delta_eq_err cfg pages false s h0 (Option.ne_none_iff_isSome.mp hne)] at hout
    exact hne hout
  have hRI0 : RInv ([] : List String) s := fun p hp => absurd hp (by simp)
  obtain ⟨o1, o2, o3, o4⟩ := pages_fold_R cfg hu hd pages [] s h0 hnd hes hRI0 hWf herr
  rw [List.nil_append] at o1
  rw [execute_delta_eq_ok cfg pages s h0 herr] at hout ⊢
  rw [delta_delete_pass_eq] at hout ⊢
  obtain ⟨q1, q2, q3, q4, q5⟩ :=
    delta_fold_D cfg (pages.foldl (fun (acc : List String × S) page =>
      process_remote_entries cfg page acc.1 acc.2) ([], s)).1 hrm
      ((pages.foldl (fun (acc : List String × S) page =>
        process_remote_entries cfg page acc.1 acc.2) ([], s)).2.st.remote_files.map Prod.fst)
      (pages.foldl (fun (acc : List String × S) page =>
        process_remote_entries cfg page acc.1 acc.2) ([], s)).2 herr hout
  refine ⟨?_, ?_, ?_, ?_⟩
  · intro p hp
    obtain ⟨m, hm1, hm2⟩ := o2 p (by rw [o1]; exact hp)
    obtain ⟨w1, w2⟩ := q2 p (by rw [o1]; exact hp)
    exact ⟨m, by rw [w1]; exact hm1, by rw [q1]; exact hm2⟩
  · rw [q1]
    exact o3
  · intro q
    rw [q1]
    exact o4 q
  · intro p m hm
    by_cases hrsome : (alook p (pages.foldl (fun (acc : List String × S) page =>
        process_remote_entries cfg page acc.1 acc.2) ([], s)).2.st.remote_files).isSome
    · left
      have h5 := q5 p (alook_isSome_mem_fst p _ hrsome) (by rw [hm]; rfl)
      rw [o1] at h5
      exact h5
    · right
      by_contra hne
      obtain ⟨mm, hmm⟩ := Option.ne_none_iff_exists.mp hne
      have h4 := q4 p mm hmm.symm
      exact hrsome (by rw [h4]; rfl)

end Synchronator

namespace Synchronator

theorem check_local_eq (cfg : Cfg) (s : S) (h0 : s.err = none) :
    check_local cfg s =
      ((((filelist s.lfs).foldl (fun s2 p => check_state cfg p s2) s).st.local_files.map
        Prod.fst).foldl
        (fun s2 p => if !((filelist s.lfs).contains p) then delete_remote cfg p s2 else s2)
        ((filelist s.lfs).foldl (fun s2 p => check_state cfg p s2) s)) := by
  unfold check_local
  simp [h0]

theorem check_local_synced (cfg : Cfg)
    (hu : ∀ q, cfg.uploadOk q = true) (hdel : ∀ q, cfg.deleteOk q = true)
    (s : S) (h0 : s.err = none)
    (hU : UInv s) (hW3 : W3Inv s) (hWf : WfKeys s.rfs.files)
    (hok : (check_local cfg s).err = none)
    (hnw : ∀ q, Action.warnRemoteDeleteFailed q ∉ (check_local cfg s).acts) :
    Synced (check_local cfg s) := by
  have hok2 := hok
  rw [check_local_eq cfg s h0] at hok2
  have hMid : ((filelist s.lfs).foldl (fun s2 p => check_state cfg p s2) s).err = none := by
    by_contra hne
    rw [drfold_frozen cfg (filelist s.lfs) _ _ (Option.ne_none_iff_isSome.mp hne)] at hok2
    exact hne hok2
  have hflsome : ∀ p, p ∈ filelist s.lfs → (alook p s.lfs.files).isSome :=
    fun p hp => (filelist_mem s.lfs p hp).1
  obtain ⟨o1, o2, o3, o4, o5, o6⟩ :=
    csfold_L1 cfg hu (filelist s.lfs) s h0 hflsome hU hW3 hWf hMid
  have hnw2 : ∀ q, Action.warnRemoteDeleteFailed q ∉
      (((((filelist s.lfs).foldl (fun s2 p => check_state cfg p s2) s).st.local_files.map
        Prod.fst).foldl
        (fun s2 p => if !((filelist s.lfs).contains p) then delete_remote cfg p s2 else s2)
        ((filelist s.lfs).foldl (fun s2 p => check_state cfg p s2) s))).acts := by
    intro q
    have h9 := hnw q
    rw [check_local_eq cfg s h0] at h9
    exact h9
  obtain ⟨z1, z2, z3, z4, z5, z6, z7⟩ :=
    drfold_L2 cfg hdel (filelist s.lfs)
      (((filelist s.lfs).foldl (fun s2 p => check_state cfg p s2) s).st.local_files.map
        Prod.fst)
      ((filelist s.lfs).foldl (fun s2 p => check_state cfg p s2) s)
      hMid o2 o3 o4 hnw2 hok2
  rw [check_local_eq cfg s h0]
  have key : ∀ p m,
      alook p (((((filelist s.lfs).foldl (fun s2 p => check_state cfg p s2)
        s).st.local_files.map Prod.fst).foldl
        (fun s2 p => if !((filelist s.lfs).contains p) then delete_remote cfg p s2 else s2)
        ((filelist s.lfs).foldl (fun s2 p => check_state cfg p s2) s))).st.local_files
        = some m →
      p ∈ filelist s.lfs ∧
      PostCS p ((filelist s.lfs).foldl (fun s2 p => check_state cfg p s2) s) := by
    intro p m hm
    have hCSsome := z6 p m hm
    have hpold : p ∈ ((filelist s.lfs).foldl (fun s2 p => check_state cfg p s2)
        s).st.local_files.map Prod.fst :=
      alook_isSome_mem_fst p _ (by rw [hCSsome]; rfl)
    have hcont := z7 p hpold (by rw [hm]; rfl)
    have hpfl : p ∈ filelist s.lfs := by simpa using hcont
    exact ⟨hpfl, o6 p hpfl⟩
  refine ⟨?_, ?_, z3, ?_, ?_, z4, hok2⟩
  · intro p m hm
    obtain ⟨hpfl, m', t', pc1, pc2, pc3, pc4, pc5⟩ := key p m hm
    obtain ⟨e1, e2, e3⟩ := z5 p (by simpa using hpfl)
    rw [e2]
    exact pc2
  · intro p m hm
    obtain ⟨hpfl, m', t', pc1, pc2, pc3, pc4, pc5⟩ := key p m hm
    obtain ⟨e1, e2, e3⟩ := z5 p (by simpa using hpfl)
    exact z2 p m hm (by rw [e2]; exact pc2)
  · intro p m hm
    obtain ⟨hpfl, m', t', pc1, pc2, pc3, pc4, pc5⟩ := key p m hm
    obtain ⟨e1, e2, e3⟩ := z5 p (by simpa using hpfl)
    have hmm : m' = m := by
      rw [e1, pc1] at hm
      cases hm
      rfl
    refine ⟨t', by rw [z1, o1]; rw [o1] at pc4; exact pc4, ?_,
      (filelist_mem s.lfs p hpfl).2⟩
    rw [← hmm]
    exact pc5
  · intro p t hm hinc
    rw [z1, o1] at hm
    have hpfl : p ∈ filelist s.lfs := mem_filelist s.lfs p t hm hinc
    obtain ⟨m', t', pc1, pc2, pc3, pc4, pc5⟩ := o6 p hpfl
    obtain ⟨e1, e2, e3⟩ := z5 p (by simpa using hpfl)
    rw [e1, pc1]
    rfl

end Synchronator

namespace Synchronator

theorem run_sync_synced (cfg : Cfg)
    (hu : ∀ q, cfg.uploadOk q = true) (hd : ∀ q, cfg.downloadOk q = true)
    (hdel : ∀ q, cfg.deleteOk q = true) (hrm : ∀ q, cfg.removeOk q = true)
    (pages : List (List Entry)) (s1 : S)
    (h0 : s1.err = none)
    (hWf : WfKeys s1.rfs.files)
    (hnd : (fileKeys pages.join).Nodup)
    (hpag : pages.join = remote_entries s1.rfs)
    (hok : (run_sync cfg pages false s1).err = none)
    (hnw : ∀ q, Action.warnRemoteDeleteFailed q ∉ (run_sync cfg pages false s1).acts) :
    Synced (run_sync cfg pages false s1) := by
  have hes : ∀ p r, Entry.file p r ∈ pages.join → alook p s1.rfs.files = some r := by
    intro p r hp
    rw [hpag] at hp
    exact hWf p r (file_mem_remote_entries s1.rfs p r hp)
  have hE : (execute_delta cfg pages false s1).err = none := by
    by_contra hne
    have h9 := hok
    unfold run_sync at h9
    rw [check_local_err cfg _ (Option.ne_none_iff_isSome.mp hne)] at h9
    exact hne h9
  obtain ⟨E1, E2, E3, E4⟩ := execute_delta_R cfg hu hd hrm pages s1 h0 hnd hes hWf hE
  have hUD : UInv (execute_delta cfg pages false s1) := by
    intro p m hl hr
    rcases E4 p m hl with hc | hn
    · have hpm : p ∈ fileKeys pages.join := by simpa using hc
      obtain ⟨m', a1, a2⟩ := E1 p hpm
      rw [hl] at a1
      cases a1
      exact a2
    · rw [hn] at hr
      simp at hr
  have hW3D : W3Inv (execute_delta cfg pages false s1) := by
    intro p r hr
    have hpm : p ∈ fileKeys pages.join := by
      rw [hpag, fileKeys_remote_entries]
      refine alook_isSome_mem_fst p s1.rfs.files ?_
      rw [← E3 p, hr]
      rfl
    obtain ⟨m, a1, a2⟩ := E1 p hpm
    have h9 : m.rev = r := by
      rw [a2] at hr
      cases hr
      rfl
    exact ⟨m, a1, h9⟩
  exact check_local_synced cfg hu hdel _ hE hUD hW3D E2 hok hnw

end Synchronator

namespace Synchronator

theorem filelist_files_eq (fs fs' : LocalFs) (h : fs.files = fs'.files) :
    filelist fs = filelist fs' := by
  unfold filelist
  rw [h]

theorem entries_fold_noop (cfg : Cfg) (s0 : S) (hW3 : W3Inv s0) :
    ∀ (es : List Entry) (pr : Option Bool) (cur : List String) (s : S),
    s.err = none →
    s.st = s0.st → s.rfs = s0.rfs → s.lfs.files = s0.lfs.files →
    (∀ p r, Entry.file p r ∈ es → alook p s0.rfs.files = some r) →
    (es.foldl (process_entry cfg) (pr, cur, s)).2.2.err = none ∧
    (es.foldl (process_entry cfg) (pr, cur, s)).2.2.st = s0.st ∧
    (es.foldl (process_entry cfg) (pr, cur, s)).2.2.rfs = s0.rfs ∧
    (es.foldl (process_entry cfg) (pr, cur, s)).2.2.lfs.files = s0.lfs.files ∧
    (es.foldl (process_entry cfg) (pr, cur, s)).2.1 = cur ++ fileKeys es ∧
    actsExtend s (es.foldl (process_entry cfg) (pr, cur, s)).2.2 mkdirOnly := by
  intro es
  induction es with
  | nil =>
    intro pr cur s h0 hst hrfs hlfs _
    exact ⟨h0, hst, hrfs, hlfs, by simp [fileKeys], actsExtend_refl s mkdirOnly⟩
  | cons e t ih =>
    intro pr cur s h0 hst hrfs hlfs hes
    cases e with
    | file p r =>
      have hr0 : alook p s0.rfs.files = some r := hes p r (List.mem_cons_self _ _)
      obtain ⟨m, hm0, hrev⟩ := hW3 p r hr0
      have hml : alook p s.st.local_files = some m := by
        rw [hst]
        exact hm0
      have hstep := process_entry_file_same cfg pr cur s p r m h0 hml hrev.symm
      rw [List.foldl_cons, hstep]
      simp only [fileKeys]
      obtain ⟨o1, o2, o3, o4, o5, o6⟩ := ih pr (cur ++ [p]) s h0 hst hrfs hlfs
        (fun q r' hq => hes q r' (List.mem_cons_of_mem _ hq))
      refine ⟨o1, o2, o3, o4, ?_, o6⟩
      rw [o5, List.append_assoc]
      rfl
    | folder d =>
      have hest : ∀ q r', Entry.file q r' ∈ t → alook q s0.rfs.files = some r' :=
        fun q r' hq => hes q r' (List.mem_cons_of_mem _ hq)
      by_cases hex : existsLocal s.lfs d = true
      · have hstep := process_entry_folder_old cfg pr cur s d h0 hex
        rw [List.foldl_cons, hstep]
        simp only [fileKeys]
        exact ih pr cur s h0 hst hrfs hlfs hest
      · have hex' : existsLocal s.lfs d = false := by
          cases hx : existsLocal s.lfs d
          · rfl
          · exact absurd hx hex
        have hstep := process_entry_folder_new cfg pr cur s d h0 hex'
        have hfull := make_local_dir_absent_full cfg d (emit (Action.mkdir d) s) h0 hex'
        rw [List.foldl_cons, hstep]
        simp only [fileKeys]
        have hs1 : (make_local_dir cfg d (emit (Action.mkdir d) s)).err = none := by
          rw [hfull]
          exact h0
        have hs2 : (make_local_dir cfg d (emit (Action.mkdir d) s)).rfs = s.rfs := by
          rw [hfull]
          rfl
        have hs3 : (make_local_dir cfg d (emit (Action.mkdir d) s)).st = s.st := by
          rw [hfull]
          rfl
        have hs4 : (make_local_dir cfg d (emit (Action.mkdir d) s)).lfs.files = s.lfs.files := by
          rw [hfull]
          rfl
        have hs5 : (make_local_dir cfg d (emit (Action.mkdir d) s)).acts
            = s.acts ++ [Action.mkdir d] :=
          (make_local_dir_acts cfg d (emit (Action.mkdir d) s)).trans rfl
        obtain ⟨o1, o2, o3, o4, o5, o6⟩ := ih pr cur _ hs1 (hs3.trans hst) (hs2.trans hrfs)
          (hs4.trans hlfs) hest
        refine ⟨o1, o2, o3, o4, o5, ?_⟩
        refine actsExtend_trans s _ _ mkdirOnly ⟨[Action.mkdir d], hs5, ?_⟩ o6
        intro a ha
        rw [List.mem_singleton.mp ha]
        rfl

theorem pages_fold_noop (cfg : Cfg) (s0 : S) (hW3 : W3Inv s0) :
    ∀ (pages : List (List Entry)) (cur : List String) (s : S),
    s.err = none →
    s.st = s0.st → s.rfs = s0.rfs → s.lfs.files = s0.lfs.files →
    (∀ p r, Entry.file p r ∈ pages.join → alook p s0.rfs.files = some r) →
    (pages.foldl (fun (acc : List String × S) page =>
      process_remote_entries cfg page acc.1 acc.2) (cur, s)).2.err = none ∧
    (pages.foldl (fun (acc : List String × S) page =>
      process_remote_entries cfg page acc.1 acc.2) (cur, s)).2.st = s0.st ∧
    (pages.foldl (fun (acc : List String × S) page =>
      process_remote_entries cfg page acc.1 acc.2) (cur, s)).2.rfs = s0.rfs ∧
    (pages.foldl (fun (acc : List String × S) page =>
      process_remote_entries cfg page acc.1 acc.2) (cur, s)).2.lfs.files = s0.lfs.files ∧
    (pages.foldl (fun (acc : List String × S) page =>
      process_remote_entries cfg page acc.1 acc.2) (cur, s)).1 = cur ++ fileKeys pages.join ∧
    actsExtend s (pages.foldl (fun (acc : List String × S) page =>
      process_remote_entries cfg page acc.1 acc.2) (cur, s)).2 mkdirOnly := by
  intro pages
  induction pages with
  | nil =>
    intro cur s h0 hst hrfs hlfs _
    exact ⟨h0, hst, hrfs, hlfs, by simp [fileKeys], actsExtend_refl s mkdirOnly⟩
  | cons pg t ih =>
    intro cur s h0 hst hrfs hlfs hes
    simp only [List.join_cons, fileKeys_append] at hes ⊢
    rw [List.foldl_cons, process_remote_entries_eq]
    obtain ⟨a1, a2, a3, a4, a5, a6⟩ := entries_fold_noop cfg s0 hW3 pg none cur s h0
      hst hrfs hlfs (fun p r hp => hes p r (List.mem_append_left _ hp))
    obtain ⟨b1, b2, b3, b4, b5, b6⟩ := ih (pg.foldl (process_entry cfg) (none, cur, s)).2.1
      (pg.foldl (process_entry cfg) (none, cur, s)).2.2 a1 a2 a3 a4
      (fun p r hp => hes p r (List.mem_append_right _ hp))
    refine ⟨b1, b2, b3, b4, ?_, actsExtend_trans s _ _ mkdirOnly a6 b6⟩
    rw [b5, a5, List.append_assoc]

theorem delta_fold_noop (cfg : Cfg) (cur : List String) :
    ∀ (ks : List String) (s : S), s.err = none →
    (∀ p, p ∈ ks → (alook p s.st.local_files).isSome → cur.contains p = true) →
    ks.foldl (fun s p =>
      if s.err.isSome then s else
      if !(cur.contains p) && (alook p s.st.local_files).isSome then delete_local cfg p s
      else s) s = s := by
  intro ks
  induction ks with
  | nil => intro s _ _; rfl
  | cons k t ih =>
    intro s h0 hall
    rw [List.foldl_cons]
    simp only [show s.err.isSome = false by rw [h0]; rfl, Bool.false_eq_true, if_false]
    have hcond : (!(cur.contains k) && (alook k s.st.local_files).isSome) = false := by
      cases hx : (alook k s.st.local_files).isSome
      · simp
      · rw [hall k (List.mem_cons_self _ _) hx]
        simp
    rw [hcond]
    simp only [Bool.false_eq_true, if_false]
    exact ih s h0 (fun p hp => hall p (List.mem_cons_of_mem _ hp))

theorem csfold_noop (cfg : Cfg) :
    ∀ (fl : List String) (s : S), s.err = none →
    (∀ p, p ∈ fl → ∃ m t, alook p s.st.local_files = some m ∧
        (alook p s.st.remote_files).isSome ∧ alook p s.lfs.files = some t ∧
        t ≤ m.modified) →
    fl.foldl (fun s p => check_state cfg p s) s = s := by
  intro fl
  induction fl with
  | nil => intro s _ _; rfl
  | cons q t ih =>
    intro s h0 hall
    obtain ⟨m, tt, h1, h2, h3, h4⟩ := hall q (List.mem_cons_self _ _)
    rw [List.foldl_cons, check_state_skip cfg q s m tt h0 h2 h1 h3 h4]
    exact ih s h0 (fun p hp => hall p (List.mem_cons_of_mem _ hp))

theorem drfold_noop (cfg : Cfg) (fl : List String) :
    ∀ (old : List String) (s : S),
    (∀ p, p ∈ old → fl.contains p = true) →
    old.foldl (fun s2 p => if !(fl.contains p) then delete_remote cfg p s2 else s2) s = s := by
  intro old
  induction old with
  | nil => intro s _; rfl
  | cons k t ih =>
    intro s hall
    rw [List.foldl_cons]
    rw [if_neg (by rw [hall k (List.mem_cons_self _ _)]; simp)]
    exact ih s (fun p hp => hall p (List.mem_cons_of_mem _ hp))

end Synchronator

namespace Synchronator

theorem run_sync_noop (cfg : Cfg) (pages : List (List Entry)) (s : S)
    (hS : Synced s) (hpag : pages.join = remote_entries s.rfs) :
    (run_sync cfg pages false s).err = none ∧
    (run_sync cfg pages false s).st = s.st ∧
    (run_sync cfg pages false s).rfs = s.rfs ∧
    (run_sync cfg pages false s).lfs.files = s.lfs.files ∧
    actsExtend s (run_sync cfg pages false s) mkdirOnly := by
  obtain ⟨w1, w2, w3, w4, w5, w6, w7⟩ := hS
  have hes : ∀ p r, Entry.file p r ∈ pages.join → alook p s.rfs.files = some r := by
    intro p r hp
    rw [hpag] at hp
    exact w6 p r (file_mem_remote_entries s.rfs p r hp)
  obtain ⟨a1, a2, a3, a4, a5, a6⟩ := pages_fold_noop cfg s w3 pages [] s w7 rfl rfl rfl hes
  rw [List.nil_append] at a5
  have hkeys : fileKeys pages.join = s.rfs.files.map Prod.fst := by
    rw [hpag, fileKeys_remote_entries]
  have hED := execute_delta_eq_ok cfg pages s w7 a1
  have hDnoop : delta_delete_pass cfg
      (pages.foldl (fun (acc : List String × S) page =>
        process_remote_entries cfg page acc.1 acc.2) ([], s)).1
      (pages.foldl (fun (acc : List String × S) page =>
        process_remote_entries cfg page acc.1 acc.2) ([], s)).2 =
      (pages.foldl (fun (acc : List String × S) page =>
        process_remote_entries cfg page acc.1 acc.2) ([], s)).2 := by
    rw [delta_delete_pass_eq]
    apply delta_fold_noop cfg _ _ _ a1
    intro p hp hsome
    rw [a2] at hsome
    obtain ⟨m, hm⟩ := Option.isSome_iff_exists.mp hsome
    have hrf : (alook p s.rfs.files).isSome := by
      rw [w2 p m hm]
      rfl
    have hpm : p ∈ fileKeys pages.join := by
      rw [hkeys]
      exact alook_isSome_mem_fst p _ hrf
    rw [a5]
    simpa using hpm
  have hsd2 : execute_delta cfg pages false s =
      (pages.foldl (fun (acc : List String × S) page =>
        process_remote_entries cfg page acc.1 acc.2) ([], s)).2 := hED.trans hDnoop
  have hfl : filelist (pages.foldl (fun (acc : List String × S) page =>
      process_remote_entries cfg page acc.1 acc.2) ([], s)).2.lfs = filelist s.lfs := by
    apply filelist_files_eq
    rw [a4]
  have hcs : (filelist (pages.foldl (fun (acc : List String × S) page =>
      process_remote_entries cfg page acc.1 acc.2) ([], s)).2.lfs).foldl
      (fun s2 p => check_state cfg p s2)
      (pages.foldl (fun (acc : List String × S) page =>
        process_remote_entries cfg page acc.1 acc.2) ([], s)).2 =
      (pages.foldl (fun (acc : List String × S) page =>
        process_remote_entries cfg page acc.1 acc.2) ([], s)).2 := by
    apply csfold_noop cfg _ _ a1
    intro p hp
    rw [hfl] at hp
    obtain ⟨ht, hinc⟩ := filelist_mem s.lfs p hp
    obtain ⟨t, htv⟩ := Option.isSome_iff_exists.mp ht
    have htrk : (alook p s.st.local_files).isSome = true := w5 p t htv hinc
    obtain ⟨m, hm⟩ := Option.isSome_iff_exists.mp htrk
    obtain ⟨t', h1, h2, h3⟩ := w4 p m hm
    have hteq : t = t' := by
      rw [htv] at h1
      cases h1
      rfl
    refine ⟨m, t, ?_, ?_, ?_, ?_⟩
    · rw [a2]
      exact hm
    · rw [a2]
      exact w1 p m hm
    · rw [a4]
      exact htv
    · rw [hteq]
      exact h2
  have hdr : (((pages.foldl (fun (acc : List String × S) page =>
      process_remote_entries cfg page acc.1 acc.2) ([], s)).2.st.local_files.map
        Prod.fst).foldl
      (fun s2 p => if !((filelist (pages.foldl (fun (acc : List String × S) page =>
        process_remote_entries cfg page acc.1 acc.2) ([], s)).2.lfs).contains p)
        then delete_remote cfg p s2 else s2)
      (pages.foldl (fun (acc : List String × S) page =>
        process_remote_entries cfg page acc.1 acc.2) ([], s)).2) =
      (pages.foldl (fun (acc : List String × S) page =>
        process_remote_entries cfg page acc.1 acc.2) ([], s)).2 := by
    apply drfold_noop
    intro p hp
    rw [a2] at hp
    have hsome : (alook p s.st.local_files).isSome := mem_fst_alook_isSome p _ hp
    obtain ⟨m, hm⟩ := Option.isSome_iff_exists.mp hsome
    obtain ⟨t', h1, h2, h3⟩ := w4 p m hm
    have hpfl : p ∈ filelist s.lfs := mem_filelist s.lfs p t' h1 h3
    rw [hfl]
    simpa using hpfl
  have hrun : run_sync cfg pages false s =
      (pages.foldl (fun (acc : List String × S) page =>
        process_remote_entries cfg page acc.1 acc.2) ([], s)).2 := by
    unfold run_sync
    rw [hsd2, check_local_eq cfg _ a1, hcs, hdr]
  rw [hrun]
  exact ⟨a1, a2, a3, a4, a6⟩

end Synchronator

namespace Synchronator

theorem warnFree_imp (l : List Action) (h : warnFree l = true) :
    ∀ q, Action.warnRemoteDeleteFailed q ∉ l := by
  intro q hq
  have h2 := List.all_eq_true.mp h _ hq
  simp at h2

end Synchronator

open Synchronator in
/-- C8: convergence/idempotence.  If a full run (remote pass over a drained
listing that reflects the store exactly, then local pass) finishes with no
uncaught exception and no remote-delete warning, under reliable oracles,
then immediately repeating the run on the resulting state — with the
listing the store now reports — performs zero transfers: the second run
raises nothing, leaves both bookkeeping tables, the remote store and the
local files untouched, and its only new actions are local `mkdir`s (no
upload, download, or deletion on either side). -/
theorem c8_theorem (cfg cfg2 : Cfg)
    (hu : ∀ q, cfg.uploadOk q = true) (hd : ∀ q, cfg.downloadOk q = true)
    (hdel : ∀ q, cfg.deleteOk q = true) (hrm : ∀ q, cfg.removeOk q = true)
    (pages1 pages2 : List (List Entry)) (s1 : S)
    (h0 : s1.err = none)
    (hWf : WfKeys s1.rfs.files)
    (hnd : (fileKeys pages1.join).Nodup)
    (hpag1 : pages1.join = remote_entries s1.rfs)
    (hok : (run_sync cfg pages1 false s1).err = none)
    (hnw : ∀ q, Action.warnRemoteDeleteFailed q ∉ (run_sync cfg pages1 false s1).acts)
    (hpag2 : pages2.join = remote_entries (run_sync cfg pages1 false s1).rfs) :
    (run_sync cfg2 pages2 false (run_sync cfg pages1 false s1)).err = none ∧
    (run_sync cfg2 pages2 false (run_sync cfg pages1 false s1)).st
      = (run_sync cfg pages1 false s1).st ∧
    (run_sync cfg2 pages2 false (run_sync cfg pages1 false s1)).rfs
      = (run_sync cfg pages1 false s1).rfs ∧
    (run_sync cfg2 pages2 false (run_sync cfg pages1 false s1)).lfs.files
      = (run_sync cfg pages1 false s1).lfs.files ∧
    actsExtend (run_sync cfg pages1 false s1)
      (run_sync cfg2 pages2 false (run_sync cfg pages1 false s1)) mkdirOnly :=
  run_sync_noop cfg2 pages2 (run_sync cfg pages1 false s1)
    (run_sync_synced cfg hu hd hdel hrm pages1 s1 h0 hWf hnd hpag1 hok hnw) hpag2

open Synchronator in
/-- Witness for C8: a store holding one fresh file `a`; the first run
downloads it, and the repeated run is action-free except for `mkdir`s (here:
none), with all hypotheses checked on the concrete state. -/
theorem c8_witness :
    (run_sync cfg_all c8_pages2 false c8_run1).err = none ∧
    (run_sync cfg_all c8_pages2 false c8_run1).st = c8_run1.st ∧
    (run_sync cfg_all c8_pages2 false c8_run1).rfs = c8_run1.rfs ∧
    (run_sync cfg_all c8_pages2 false c8_run1).lfs.files = c8_run1.lfs.files ∧
    actsExtend c8_run1 (run_sync cfg_all c8_pages2 false c8_run1) mkdirOnly :=
  c8_theorem cfg_all cfg_all (fun _ => rfl) (fun _ => rfl) (fun _ => rfl) (fun _ => rfl)
    c8_pages1 c8_pages2 sample_fresh_remote rfl
    (by
      intro p v h
      simp only [sample_fresh_remote, List.mem_singleton] at h
      injection h with h1 h2
      subst h1
      subst h2
      rfl)
    (by decide)
    rfl
    (by decide)
    (warnFree_imp _ (by decide))
    rfl
